import Mathlib

/-!
Verification of the deterministic SRT post-processing layer of the
transcript tool (`src/services/geminiService.ts`).

The TypeScript functions are shallowly embedded over `List Char`
(JavaScript strings are sequences of code units; all inputs of interest
here are sequences of characters).  JavaScript-specific primitives are
modelled explicitly:

* the whitespace class `\s` used by `String.prototype.trim`, by
  `parseInt`, and by the block separator regex `/\n\s*\n/`;
* `parseInt(s) || 0` (leading whitespace, optional sign, `0x` hex prefix,
  maximal digit prefix, `NaN`/`0` collapsing to `0`);
* `Math.floor` on a quotient of integers (`Int.fdiv`) and the `%`
  operator (truncated remainder, `Int.tmod`);
* `Number.prototype.toString` and `String.prototype.padStart`;
* `String.prototype.split` with a string separator and with the regexes
  `[:,\.]` and `/\n\s*\n/`, and global regex replacement for
  `normalizeTimestamps` and the chemistry patch-ups.

All scanners are structurally recursive (fuel-based where the original
loop is not structural) so that every definition evaluates inside the
kernel.
-/

namespace TranscriptTool

/-- The JavaScript whitespace set: exactly the characters matched by the
regex class `\s` and stripped by `String.prototype.trim` (WhiteSpace ∪
LineTerminator): TAB, LF, VT, FF, CR, SP, NBSP, OGHAM SPACE MARK,
EN QUAD .. HAIR SPACE, LS, PS, NNBSP, MMSP, IDEOGRAPHIC SPACE, BOM. -/
def isJsWs (c : Char) : Bool :=
  decide (c.toNat = 9 ∨ c.toNat = 10 ∨ c.toNat = 11 ∨ c.toNat = 12 ∨
    c.toNat = 13 ∨ c.toNat = 32 ∨ c.toNat = 0xa0 ∨ c.toNat = 0x1680 ∨
    (0x2000 ≤ c.toNat ∧ c.toNat ≤ 0x200a) ∨ c.toNat = 0x2028 ∨
    c.toNat = 0x2029 ∨ c.toNat = 0x202f ∨ c.toNat = 0x205f ∨
    c.toNat = 0x3000 ∨ c.toNat = 0xfeff)

/-- Drop leading JavaScript whitespace (the `trimStart` half of `trim`). -/
def ldw (l : List Char) : List Char := l.dropWhile isJsWs

/-- Drop trailing JavaScript whitespace (the `trimEnd` half of `trim`). -/
def rdw (l : List Char) : List Char := (l.reverse.dropWhile isJsWs).reverse

/-- `String.prototype.trim`. -/
def trimL (l : List Char) : List Char := rdw (ldw l)

/-- `String.prototype.length`: the number of UTF-16 code units (an astral
code point counts as two). -/
def utf16Len (l : List Char) : Nat :=
  (l.map fun c => if 0x10000 ≤ c.toNat then 2 else 1).sum

/-- `str.split(sep)` for a one-character separator class: splits at every
character satisfying `p`, keeping empty pieces (JavaScript semantics). -/
def splitCharSep (p : Char → Bool) : List Char → List (List Char)
  | [] => [[]]
  | c :: cs =>
    if p c then [] :: splitCharSep p cs
    else
      match splitCharSep p cs with
      | [] => [[c]]
      | t :: ts => (c :: t) :: ts

/-- `str.split("\n")`. -/
def splitNl (l : List Char) : List (List Char) := splitCharSep (· = '\n') l

/-- `arr.join(sep)` (JavaScript `Array.prototype.join`). -/
def icl (sep : List α) : List (List α) → List α
  | [] => []
  | [x] => x
  | x :: xs => x ++ sep ++ icl sep xs

/-- ASCII decimal digit (`'0'..'9'`, code points 48..57). -/
def isDigitC (c : Char) : Bool := decide (48 ≤ c.toNat ∧ c.toNat ≤ 57)

/-- ASCII hexadecimal digit. -/
def isHexDigitC (c : Char) : Bool :=
  isDigitC c || decide (97 ≤ c.toNat ∧ c.toNat ≤ 102) ||
    decide (65 ≤ c.toNat ∧ c.toNat ≤ 70)

/-- Numeric value of a list of decimal digits (most significant first). -/
def digitsVal (l : List Char) : Nat :=
  l.foldl (fun a c => 10 * a + (c.toNat - 48)) 0

/-- Numeric value of a list of hexadecimal digits. -/
def hexVal (l : List Char) : Nat :=
  l.foldl
    (fun a c =>
      16 * a +
        (if isDigitC c then c.toNat - 48
         else if decide (97 ≤ c.toNat ∧ c.toNat ≤ 102) then c.toNat - 87
         else c.toNat - 55))
    0

/-- The optional sign at the head of a `parseInt` input: returns the sign
and the remaining characters. -/
def stripSign (cs : List Char) : Int × List Char :=
  match cs with
  | '-' :: r => (-1, r)
  | '+' :: r => (1, r)
  | _ => (1, cs)

/-- JavaScript `parseInt(s)` (radix unspecified): skip leading whitespace,
optional sign, a `0x`/`0X` prefix selects base 16, otherwise the maximal
decimal digit prefix is read; `none` models `NaN`. -/
def parseIntJS (s : List Char) : Option Int :=
  let p := stripSign (s.dropWhile isJsWs)
  let sgn := p.1
  let cs := p.2
  match cs with
  | '0' :: x :: r =>
    if x = 'x' ∨ x = 'X' then
      let ds := r.takeWhile isHexDigitC
      if ds = [] then none else some (sgn * (hexVal ds : Int))
    else
      let ds := cs.takeWhile isDigitC
      if ds = [] then none else some (sgn * (digitsVal ds : Int))
  | _ =>
    let ds := cs.takeWhile isDigitC
    if ds = [] then none else some (sgn * (digitsVal ds : Int))

/-- `parseInt(s) || 0`: `NaN` (and the falsy value `0` itself) collapse
to `0`. -/
def parseIntOr0 (s : List Char) : Int := (parseIntJS s).getD 0

/-- The timestamp parser `toMs` of `refineSrtTiming`:
`ts.split(/[:,\.]/)`, at least three fields required, `parseInt || 0`
on each field, `h*3600000 + m*60000 + s*1000 + ms`. -/
def toMsL (ts : List Char) : Int :=
  let parts := splitCharSep (fun c => c = ':' ∨ c = ',' ∨ c = '.') ts
  if parts.length < 3 then 0
  else
    let h := parseIntOr0 (parts.getD 0 [])
    let m := parseIntOr0 (parts.getD 1 [])
    let s := parseIntOr0 (parts.getD 2 [])
    let ms := parseIntOr0 (parts.getD 3 [])
    h * 3600000 + m * 60000 + s * 1000 + ms

/-- String-level wrapper for `toMs`. -/
def toMs (ts : String) : Int := toMsL ts.data

/-- Decimal digits of a natural number, most significant first
(structural in the fuel; `fuel ≥ n` suffices). -/
def natToCharsFuel : Nat → Nat → List Char
  | 0, n => [Char.ofNat (48 + n % 10)]
  | fuel + 1, n =>
    if n < 10 then [Char.ofNat (48 + n)]
    else natToCharsFuel fuel (n / 10) ++ [Char.ofNat (48 + n % 10)]

/-- Decimal digits of a natural number. -/
def natToChars (n : Nat) : List Char := natToCharsFuel n n

/-- JavaScript `Number.prototype.toString` for an integer value. -/
def intToChars (i : Int) : List Char :=
  if i < 0 then '-' :: natToChars i.natAbs else natToChars i.toNat

/-- `String.prototype.padStart(n, c)`. -/
def padL (n : Nat) (c : Char) (l : List Char) : List Char :=
  List.replicate (n - l.length) c ++ l

/-- The serializer `toStr` of `refineSrtTiming`: `Math.floor` is `Int.fdiv`
and `%` is the truncated remainder `Int.tmod` (JavaScript semantics, which
differ on negative inputs). -/
def toStrL (ms : Int) : List Char :=
  let h := Int.fdiv ms 3600000
  let m := Int.fdiv (Int.tmod ms 3600000) 60000
  let s := Int.fdiv (Int.tmod ms 60000) 1000
  let msec := Int.tmod ms 1000
  padL 2 '0' (intToChars h) ++ ':' :: padL 2 '0' (intToChars m) ++
    ':' :: padL 2 '0' (intToChars s) ++ ',' :: padL 3 '0' (intToChars msec)

/-- A whole line consists of JavaScript whitespace. -/
def allWsL (l : List Char) : Bool := l.all isJsWs

/-- Line-level scanner for the block-separator regex split
`str.split(/\n\s*\n/)`.  Derivation from the regex semantics: writing the
string as lines `L₀ \n L₁ \n …`, a (leftmost) match can only begin at the
newline that terminates some line `Lⱼ`, and it exists iff `Lⱼ₊₁` is
whitespace-only *and* is not the final line (the final line is not
terminated by a newline, and the greedy `\s*` must back up to a `\n`).
The greedy match then consumes the maximal run of whitespace-only lines
following `Lⱼ` together with their terminating newlines — except that
when the run extends to the final line of the string, that last line has
no terminating newline and therefore survives as the next piece.  Pieces
keep their lines verbatim (including leading non-newline whitespace that
the match cannot consume). -/
def sbGo : Nat → List (List Char) → List (List Char) → List (List (List Char))
  | 0, acc, _ => [acc.reverse]
  | _ + 1, acc, [] => [acc.reverse]
  | _ + 1, acc, [l] => [(l :: acc).reverse]
  | fuel + 1, acc, l :: l' :: rest =>
    if allWsL l' ∧ rest ≠ [] then
      let rest' := (l' :: rest).dropWhile allWsL
      match rest' with
      | [] => [(l :: acc).reverse, [(l' :: rest).getLast (by simp)]]
      | _ => (l :: acc).reverse :: sbGo fuel [] rest'
    else
      sbGo fuel (l :: acc) (l' :: rest)

/-- `str.split(/\n\s*\n/)`: split into lines, group them with `sbGo`,
re-join each group with newlines. -/
def splitBlankL (s : List Char) : List (List Char) :=
  let ls := splitNl s
  (sbGo (ls.length + 1) [] ls).map (icl ['\n'])

/-- `str.split(sep)` for a non-empty string separator: leftmost,
non-overlapping occurrences (fuel-based scan; `fuel ≥ length` suffices). -/
def splitStrGo (sep : List Char) : Nat → List Char → List Char → List (List Char)
  | 0, acc, l => [acc.reverse ++ l]
  | _ + 1, acc, [] => [acc.reverse]
  | fuel + 1, acc, c :: cs =>
    if (c :: cs).take sep.length = sep then
      acc.reverse :: splitStrGo sep fuel [] ((c :: cs).drop sep.length)
    else
      splitStrGo sep fuel (c :: acc) cs

/-- `str.split(" --> ")`. -/
def splitArrow (l : List Char) : List (List Char) :=
  splitStrGo (" --> ".data) (l.length + 1) [] l

/-- A parsed SRT block: index label (verbatim), start and end in
milliseconds, text lines (newline-joined, verbatim). -/
structure Block where
  index : List Char
  startMs : Int
  endMs : Int
  text : List Char
deriving Repr, DecidableEq, Inhabited

/-- The block parser inside `refineSrtTiming`: split the piece into lines,
require at least 3 (index, time line, ≥ 1 text line), split the time line
on `" --> "`, require both halves non-empty (JavaScript truthiness of the
destructured `startStr`/`endStr`), and parse the trimmed halves. -/
def parsePieceL (piece : List Char) : Option Block :=
  let lines := splitNl piece
  if lines.length < 3 then none
  else
    let index := lines.getD 0 []
    let timeLine := lines.getD 1 []
    let text := icl ['\n'] (lines.drop 2)
    let parts := splitArrow timeLine
    let startStr := parts.getD 0 []
    let endStr := parts.getD 1 []
    if startStr = [] ∨ endStr = [] then none
    else some ⟨index, toMsL (trimL startStr), toMsL (trimL endStr), text⟩

/-- `srt.trim().split(/\n\s*\n/).map(parse).filter(Boolean)`. -/
def parsedBlocksL (s : List Char) : List Block :=
  ((splitBlankL (trimL s)).map parsePieceL).reduceOption

/-- The body of the `forEach` in `refineSrtTiming`: the start is anchored;
a non-last block ends 1 ms before the next block's start, with a
`start + 1000` fallback when that does not move forward; the last block
ends at `start + 4000`. -/
def refineBlock (bs : List Block) (i : Nat) (b : Block) : Block :=
  let newStart := b.startMs
  let newEnd : Int :=
    if i + 1 < bs.length then
      let nextStart := (bs.getD (i + 1) default).startMs
      let ne := nextStart - 1
      if ne ≤ newStart then newStart + 1000 else ne
    else
      newStart + 4000
  ⟨b.index, newStart, newEnd, b.text⟩

/-- Index-aware map over the parsed blocks (the `forEach` loop). -/
def refineGo (bs : List Block) : Nat → List Block → List Block
  | _, [] => []
  | i, b :: rest => refineBlock bs i b :: refineGo bs (i + 1) rest

/-- The refined block sequence of `refineSrtTiming`. -/
def refineEndsL (bs : List Block) : List Block := refineGo bs 0 bs

/-- One serialized block: `index\nstart --> end\ntext\n\n`. -/
def serializeBlockL (b : Block) : List Char :=
  b.index ++ '\n' :: (toStrL b.startMs ++ " --> ".data ++ toStrL b.endMs) ++
    '\n' :: b.text ++ ['\n', '\n']

/-- `refineSrtTiming`: parse, recompute end times, re-serialize, trim. -/
def refineSrtTimingL (s : List Char) : List Char :=
  trimL (List.flatten ((refineEndsL (parsedBlocksL s)).map serializeBlockL))

/-- String-level wrapper for `refineSrtTiming`. -/
def refineSrtTiming (srt : String) : String := String.mk (refineSrtTimingL srt.data)

/-- The parsed blocks of a string, string-level. -/
def parsedBlocksOf (s : String) : List Block := parsedBlocksL s.data

/-- The refined blocks of a string (whose serialization, trimmed, is the
output of `refineSrtTiming`). -/
def refinedBlocksOf (s : String) : List Block := refineEndsL (parsedBlocksOf s)

/-- Match the first `normalizeTimestamps` pattern
`(\d{2}):(\d{2}):(\d{2})[.,](\d{1,3})` at the head of the list; on success
return the length of the match and its replacement
`h:m:s,ms.padStart(3,"0")`. -/
def normMatch1 (l : List Char) : Option (Nat × List Char) :=
  match l with
  | h1 :: h2 :: ':' :: m1 :: m2 :: ':' :: s1 :: s2 :: sep :: rest =>
    if isDigitC h1 && isDigitC h2 && isDigitC m1 && isDigitC m2 &&
        isDigitC s1 && isDigitC s2 && (sep = '.' || sep = ',') then
      let ds := (rest.takeWhile isDigitC).take 3
      if ds = [] then none
      else
        some (9 + ds.length,
          h1 :: h2 :: ':' :: m1 :: m2 :: ':' :: s1 :: s2 :: ',' :: padL 3 '0' ds)
    else none
  | _ => none

/-- Match the second `normalizeTimestamps` pattern
`(\d{2}):(\d{2}):(\d{2})(\d{3})` at the head of the list. -/
def normMatch2 (l : List Char) : Option (Nat × List Char) :=
  match l with
  | h1 :: h2 :: ':' :: m1 :: m2 :: ':' :: s1 :: s2 :: d1 :: d2 :: d3 :: _ =>
    if isDigitC h1 && isDigitC h2 && isDigitC m1 && isDigitC m2 &&
        isDigitC s1 && isDigitC s2 && isDigitC d1 && isDigitC d2 && isDigitC d3 then
      some (11, h1 :: h2 :: ':' :: m1 :: m2 :: ':' :: s1 :: s2 :: ',' :: d1 :: d2 :: [d3])
    else none
  | _ => none

/-- Global regex replacement: scan left to right, at each position try the
matcher; on a match emit the replacement and continue after the match
(non-overlapping), otherwise emit the character and advance.  Every match
consumes at least one character, so `fuel ≥ length` suffices. -/
def reReplaceGo (mtch : List Char → Option (Nat × List Char)) :
    Nat → List Char → List Char
  | 0, l => l
  | _ + 1, [] => []
  | fuel + 1, c :: cs =>
    match mtch (c :: cs) with
    | some (n, rep) => rep ++ reReplaceGo mtch fuel ((c :: cs).drop (max n 1))
    | none => c :: reReplaceGo mtch fuel cs

/-- `normalizeTimestamps`: the two chained global replaces. -/
def normalizeTimestampsL (s : List Char) : List Char :=
  let s1 := reReplaceGo normMatch1 s.length s
  reReplaceGo normMatch2 s1.length s1

/-- String-level wrapper for `normalizeTimestamps`. -/
def normalizeTimestamps (srt : String) : String :=
  String.mk (normalizeTimestampsL srt.data)

/-- The accumulation loop of `chunkTranscript`: when appending the next
line (plus a separating `"\n"`) would exceed `maxLen` UTF-16 units, the
accumulated chunk is pushed trimmed and the line starts a new chunk;
after the loop the final chunk is pushed only if its trimmed form is
non-empty. -/
def chunkLoopL (maxLen : Nat) : List (List Char) → List Char → List (List Char)
  | [], current =>
    if 0 < utf16Len (trimL current) then [trimL current] else []
  | line :: rest, current =>
    if maxLen < utf16Len (current ++ '\n' :: line) then
      trimL current :: chunkLoopL maxLen rest line
    else
      chunkLoopL maxLen rest (current ++ '\n' :: line)

/-- `chunkTranscript(text, maxLen = 6000)`. -/
def chunkTranscriptL (text : List Char) (maxLen : Nat) : List (List Char) :=
  chunkLoopL maxLen (splitNl text) []

/-- String-level wrapper for `chunkTranscript`. -/
def chunkTranscript (text : String) (maxLen : Nat := 6000) : List String :=
  (chunkTranscriptL text.data maxLen).map String.mk

/-- One step of the inner loop of `mergeSrtChunks`: a piece with fewer
than 2 lines is skipped; otherwise emit
`(indexOffset+1)\ntimeLine\ntext\n\n` and bump the offset. -/
def mergeBlockStep (acc : List Char × Nat) (block : List Char) : List Char × Nat :=
  let lines := splitNl block
  if lines.length < 2 then acc
  else
    let timeLine := lines.getD 1 []
    let text := icl ['\n'] (lines.drop 2)
    (acc.1 ++ natToChars (acc.2 + 1) ++ '\n' :: timeLine ++ '\n' :: text ++
      ['\n', '\n'], acc.2 + 1)

/-- `mergeSrtChunks`: two nested loops over windows and their blocks,
then a final trim. -/
def mergeSrtChunksL (srts : List (List Char)) : List Char :=
  let res := srts.foldl
    (fun acc srt => (splitBlankL (trimL srt)).foldl mergeBlockStep acc) ([], 0)
  trimL res.1

/-- String-level wrapper for `mergeSrtChunks`. -/
def mergeSrtChunks (srts : List String) : String :=
  String.mk (mergeSrtChunksL (srts.map String.data))

/-- The four chained anchored replaces that strip a code-fence wrapper in
`generateSrt` / `translateSrt`:
`.replace(/^```srt\n/,'').replace(/^```\n/,'').replace(/^```/,'').replace(/```$/,'')`. -/
def stripFencesL (s : List Char) : List Char :=
  let f1 := "```srt\n".data
  let f2 := "```\n".data
  let f3 := "```".data
  let s1 := if s.take f1.length = f1 then s.drop f1.length else s
  let s2 := if s1.take f2.length = f2 then s1.drop f2.length else s1
  let s3 := if s2.take f3.length = f3 then s2.drop f3.length else s2
  if s3.length ≥ 3 ∧ s3.drop (s3.length - 3) = f3 then s3.take (s3.length - 3) else s3

/-- `\w` word character for `\b` word boundaries. -/
def isWordC (c : Char) : Bool :=
  isDigitC c || decide (97 ≤ c.toNat ∧ c.toNat ≤ 122) ||
    decide (65 ≤ c.toNat ∧ c.toNat ≤ 90) || c = '_'

/-- ASCII lowercasing, for the `/i` flag (the patched patterns are ASCII
letters plus `₂`, which has no case mapping). -/
def toLowerA (c : Char) : Char :=
  if decide (65 ≤ c.toNat ∧ c.toNat ≤ 90) then Char.ofNat (c.toNat + 32) else c

/-- Case-insensitive prefix test. -/
def ciPrefix : List Char → List Char → Bool
  | [], _ => true
  | _ :: _, [] => false
  | p :: ps, c :: cs => (toLowerA p = toLowerA c) && ciPrefix ps cs

/-- A `\b` word boundary between an optional previous character and an
optional next character (string edges count as non-word). -/
def wordBoundary (prev next : Option Char) : Bool :=
  (prev.map isWordC).getD false != (next.map isWordC).getD false

/-- Global case-insensitive replacement of `/\bpat\b/gi` (the chemistry
patch-ups).  `prev` is the character of the *original* string preceding
the scan position, used by the leading `\b`. -/
def wordRepGo (pat rep : List Char) : Nat → Option Char → List Char → List Char
  | 0, _, l => l
  | _ + 1, _, [] => []
  | fuel + 1, prev, c :: cs =>
    let matched := (c :: cs).take pat.length
    if pat ≠ [] ∧ ciPrefix pat (c :: cs) ∧
        wordBoundary prev (some c) ∧
        wordBoundary matched.getLast? ((c :: cs).drop pat.length).head? then
      rep ++ wordRepGo pat rep fuel matched.getLast? ((c :: cs).drop pat.length)
    else
      c :: wordRepGo pat rep fuel (some c) cs

/-- `str.replace(/\bpat\b/gi, rep)`. -/
def replaceWordCI (pat rep : String) (s : List Char) : List Char :=
  wordRepGo pat.data rep.data s.length none s

/-- The safety patch for hallucinated chemistry in `generateSrt`. -/
def chemPatchL (s : List Char) : List Char :=
  replaceWordCI "NADH2" "NADH"
    (replaceWordCI "NADH₂" "NADH"
      (replaceWordCI "CO₂ dioxide" "carbon dioxide"
        (replaceWordCI "carbon CO₂" "carbon dioxide" s)))

/-- The deterministic post-processing of one generator response in
`generateSrt`: strip the code fence, apply the chemistry patches, trim,
refine.  The external call itself (API-key lookup, prompt construction and
the network request) is abstracted as the oracle `gen`, which returns the
response text for a window or fails; `Except` models a thrown/rejected
promise. -/
def generateSrtModel (gen : String → Except String String) (text : String) :
    Except String String := do
  let raw ← gen text
  let cleanText := stripFencesL raw.data
  let cleanText := chemPatchL cleanText
  pure (refineSrtTiming (String.mk (trimL cleanText)))

/-- `generateFullSrt`: chunk the transcript (default window size 6000),
for each window call the generator pipeline and then
`normalizeTimestamps`, and merge the per-window results; the first
failing window aborts the whole computation. -/
def generateFullSrtModel (gen : String → Except String String)
    (fullTranscript : String) : Except String String := do
  let chunks := chunkTranscript fullTranscript
  let results ← chunks.mapM fun chunk => do
    let srt ← generateSrtModel gen chunk
    pure (normalizeTimestamps srt)
  pure (mergeSrtChunks results)

/-! ### Whitespace and trimming lemmas -/

/-- A character list containing at least one non-whitespace character. -/
def lineHasContent (l : List Char) : Prop := ∃ c ∈ l, isJsWs c = false

instance (l : List Char) : Decidable (lineHasContent l) := by
  unfold lineHasContent; infer_instance

theorem lineHasContent_append_left {a : List Char} (b : List Char)
    (h : lineHasContent a) : lineHasContent (a ++ b) := by
  obtain ⟨c, hc, hws⟩ := h
  exact ⟨c, List.mem_append_left _ hc, hws⟩

theorem lineHasContent_append_right (a : List Char) {b : List Char}
    (h : lineHasContent b) : lineHasContent (a ++ b) := by
  obtain ⟨c, hc, hws⟩ := h
  exact ⟨c, List.mem_append_right _ hc, hws⟩

theorem dropWhile_ne_nil_of_content {l : List Char}
    (h : lineHasContent l) : l.dropWhile isJsWs ≠ [] := by
  intro hnil
  obtain ⟨c, hc, hws⟩ := h
  have := List.dropWhile_eq_nil_iff.mp hnil c hc
  simp [hws] at this

theorem ldw_append {a : List Char} (b : List Char) (h : lineHasContent a) :
    ldw (a ++ b) = ldw a ++ b := by
  unfold ldw
  rw [List.dropWhile_append]
  have := dropWhile_ne_nil_of_content h
  simp [List.isEmpty_iff, this]

theorem ldw_cons_of_false {c : Char} (cs : List Char) (h : isJsWs c = false) :
    ldw (c :: cs) = c :: cs := by
  unfold ldw
  rw [List.dropWhile_cons]
  simp [h]

theorem ldw_ws_drop {w : List Char} (l : List Char)
    (h : ∀ c ∈ w, isJsWs c = true) : ldw (w ++ l) = ldw l := by
  unfold ldw
  rw [List.dropWhile_append]
  have : w.dropWhile isJsWs = [] := List.dropWhile_eq_nil_iff.mpr h
  simp [this]

theorem content_reverse {l : List Char} (h : lineHasContent l) :
    lineHasContent l.reverse := by
  obtain ⟨c, hc, hws⟩ := h
  exact ⟨c, List.mem_reverse.mpr hc, hws⟩

theorem rdw_append (a : List Char) {b : List Char} (h : lineHasContent b) :
    rdw (a ++ b) = a ++ rdw b := by
  unfold rdw
  rw [List.reverse_append, List.dropWhile_append]
  have := dropWhile_ne_nil_of_content (content_reverse h)
  simp only [List.isEmpty_iff, this, if_false]
  rw [List.reverse_append, List.reverse_reverse]

theorem rdw_ws_suffix (l : List Char) {w : List Char}
    (h : ∀ c ∈ w, isJsWs c = true) : rdw (l ++ w) = rdw l := by
  unfold rdw
  rw [List.reverse_append, List.dropWhile_append]
  have : w.reverse.dropWhile isJsWs = [] :=
    List.dropWhile_eq_nil_iff.mpr (fun c hc => h c (List.mem_reverse.mp hc))
  simp [this]

theorem rdw_concat_of_false (l : List Char) {c : Char} (h : isJsWs c = false) :
    rdw (l ++ [c]) = l ++ [c] := by
  unfold rdw
  rw [List.reverse_append]
  simp only [List.reverse_cons, List.reverse_nil, List.nil_append,
    List.singleton_append, List.dropWhile_cons, h]
  simp

/-- A list that starts and ends with non-whitespace is fixed by `trim`. -/
theorem trimL_eq_self {l : List Char} (hne : l ≠ [])
    (hh : ∀ c, l.head? = some c → isJsWs c = false)
    (hl : ∀ c, l.getLast? = some c → isJsWs c = false) : trimL l = l := by
  unfold trimL
  have hldw : ldw l = l := by
    obtain ⟨c, cs, rfl⟩ := List.exists_cons_of_ne_nil hne
    exact ldw_cons_of_false _ (hh c rfl)
  rw [hldw]
  rcases List.eq_nil_or_concat l with h | ⟨L, b, rfl⟩
  · exact absurd h hne
  · rw [List.concat_eq_append]
    exact rdw_concat_of_false _
      (hl b (by simp [List.concat_eq_append, List.getLast?_append]))

/-! ### `splitCharSep` lemmas -/

theorem splitCharSep_ne_nil (p : Char → Bool) (l : List Char) :
    splitCharSep p l ≠ [] := by
  induction l with
  | nil => simp [splitCharSep]
  | cons c cs ih =>
    rw [splitCharSep]
    split
    · simp
    · rcases hs : splitCharSep p cs with _ | ⟨t, ts⟩
      · simp
      · simp

theorem splitCharSep_nosep {p : Char → Bool} {l : List Char}
    (h : ∀ c ∈ l, p c = false) : splitCharSep p l = [l] := by
  induction l with
  | nil => rfl
  | cons c cs ih =>
    rw [splitCharSep]
    have hc : p c = false := h c (by simp)
    rw [if_neg (by simp [hc])]
    rw [ih (fun x hx => h x (by simp [hx]))]

theorem splitCharSep_append {p : Char → Bool} (a : List Char) {c : Char}
    (b : List Char) (hc : p c = true) :
    splitCharSep p (a ++ c :: b) = splitCharSep p a ++ splitCharSep p b := by
  induction a with
  | nil =>
    simp only [List.nil_append, splitCharSep, hc, if_true]
    rfl
  | cons x a' ih =>
    rcases hs : splitCharSep p a' with _ | ⟨t, ts⟩
    · exact absurd hs (splitCharSep_ne_nil p a')
    · cases hx : p x with
      | true =>
        simp only [List.cons_append, splitCharSep, List.append_eq, hx, if_true, ih]
      | false =>
        simp only [List.cons_append, splitCharSep, List.append_eq, hx,
          Bool.false_eq_true, if_false, ih, hs]

theorem icl_cons₂ (sep : List α) (x y : List α) (xs : List (List α)) :
    icl sep (x :: y :: xs) = x ++ sep ++ icl sep (y :: xs) := rfl

/-- Joining the `split("\n")` pieces with `"\n"` restores the string. -/
theorem icl_splitCharSep (c : Char) (l : List Char) :
    icl [c] (splitCharSep (fun x => decide (x = c)) l) = l := by
  induction l with
  | nil => rfl
  | cons x xs ih =>
    rw [splitCharSep]
    by_cases hx : x = c
    · subst hx
      rw [if_pos (by simp)]
      rcases hs : splitCharSep (fun y => decide (y = x)) xs with _ | ⟨t, ts⟩
      · exact absurd hs (splitCharSep_ne_nil _ xs)
      · rw [icl_cons₂]
        rw [hs] at ih
        simp [ih]
    · rw [if_neg (by simp [hx])]
      rcases hs : splitCharSep (fun y => decide (y = c)) xs with _ | ⟨t, ts⟩
      · exact absurd hs (splitCharSep_ne_nil _ xs)
      · rw [hs] at ih
        rcases ts with _ | ⟨u, us⟩
        · simpa [icl] using ih
        · rw [icl_cons₂] at ih ⊢
          simp [← ih]

/-- Pieces produced by `split` never contain the separator. -/
theorem splitCharSep_no_sep {p : Char → Bool} {l : List Char} :
    ∀ t ∈ splitCharSep p l, ∀ c ∈ t, p c = false := by
  induction l with
  | nil =>
    intro t ht
    simp [splitCharSep] at ht
    simp [ht]
  | cons x xs ih =>
    intro t ht c hct
    rw [splitCharSep] at ht
    by_cases hx : p x
    · rw [if_pos hx] at ht
      rcases List.mem_cons.mp ht with h | h
      · subst h; simp at hct
      · exact ih t h c hct
    · rw [if_neg hx] at ht
      rcases hs : splitCharSep p xs with _ | ⟨u, us⟩
      · exact absurd hs (splitCharSep_ne_nil p xs)
      · rw [hs] at ht
        rcases List.mem_cons.mp ht with h | h
        · subst h
          rcases List.mem_cons.mp hct with h' | h'
          · subst h'; simpa using hx
          · exact ih u (by simp [hs]) c h'
        · exact ih t (by simp [hs, h]) c hct

/-- Splitting a separator-joined list of separator-free pieces gives the
pieces back. -/
theorem splitCharSep_icl {c : Char} {ls : List (List Char)} (hne : ls ≠ [])
    (hfree : ∀ t ∈ ls, ∀ x ∈ t, x ≠ c) :
    splitCharSep (fun x => decide (x = c)) (icl [c] ls) = ls := by
  induction ls with
  | nil => exact absurd rfl hne
  | cons t ts ih =>
    rcases ts with _ | ⟨u, us⟩
    · show splitCharSep _ (icl [c] [t]) = [t]
      exact splitCharSep_nosep (fun x hx => by
        simp [hfree t (by simp) x hx])
    · rw [icl_cons₂]
      rw [List.append_assoc, List.singleton_append]
      rw [splitCharSep_append t _ (by simp)]
      rw [splitCharSep_nosep (fun x hx => by simp [hfree t (by simp) x hx])]
      rw [ih (by simp) (fun s hs x hx => hfree s (by simp [hs]) x hx)]
      rfl

/-! ### `sbGo` (blank-line split) lemmas -/

theorem sbGo_fuel : ∀ (n fuel fuel' : Nat) (acc ls : List (List Char)),
    ls.length ≤ n → ls.length ≤ fuel → ls.length ≤ fuel' →
    sbGo fuel acc ls = sbGo fuel' acc ls := by
  intro n
  induction n with
  | zero =>
    intro fuel fuel' acc ls hn _ _
    have : ls = [] := List.eq_nil_of_length_eq_zero (Nat.le_zero.mp hn)
    subst this
    cases fuel <;> cases fuel' <;> rfl
  | succ n ih =>
    intro fuel fuel' acc ls hn hf hf'
    match ls with
    | [] => cases fuel <;> cases fuel' <;> rfl
    | [l] =>
      simp only [List.length_cons, List.length_nil] at hf hf'
      cases fuel with
      | zero => omega
      | succ f =>
        cases fuel' with
        | zero => omega
        | succ f' => rfl
    | l :: l' :: rest =>
      simp only [List.length_cons] at hn hf hf'
      cases fuel with
      | zero => omega
      | succ f =>
        cases fuel' with
        | zero => omega
        | succ f' =>
          by_cases hcond : allWsL l' = true ∧ rest ≠ []
          · rcases hrest' : (l' :: rest).dropWhile allWsL with _ | ⟨r, rs⟩
            · simp only [sbGo, hcond.1, hrest']
              rw [if_pos ⟨trivial, hcond.2⟩, if_pos ⟨trivial, hcond.2⟩]
            · have hlen : (r :: rs).length ≤ rest.length + 1 := by
                have h := (List.dropWhile_sublist (l := l' :: rest) allWsL).length_le
                rw [hrest'] at h
                simpa using h
              simp only [sbGo, hcond.1, hrest']
              rw [if_pos ⟨trivial, hcond.2⟩, if_pos ⟨trivial, hcond.2⟩]
              rw [ih f f' [] (r :: rs) (by omega) (by omega) (by omega)]
          · simp only [sbGo, hcond, if_false]
            exact ih f f' (l :: acc) (l' :: rest) (by simp; omega)
              (by simp; omega) (by simp; omega)

theorem allWsL_eq_false_of_content {l : List Char} (h : lineHasContent l) :
    allWsL l = false := by
  obtain ⟨c, hc, hws⟩ := h
  unfold allWsL
  rw [List.all_eq_false]
  exact ⟨c, hc, by simp [hws]⟩

/-- Scanning a final group (all lines with content) accumulates it whole. -/
theorem sbGo_final : ∀ (g : List (List Char)) (acc : List (List Char)) (fuel : Nat),
    g.length ≤ fuel → g ≠ [] → (∀ l ∈ g, lineHasContent l) →
    sbGo fuel acc g = [acc.reverse ++ g] := by
  intro g
  induction g with
  | nil => intro acc fuel _ hne _; exact absurd rfl hne
  | cons l g' ih =>
    intro acc fuel hf _ hcont
    cases g' with
    | nil =>
      cases fuel with
      | zero => simp at hf
      | succ f => simp [sbGo]
    | cons l₂ g'' =>
      cases fuel with
      | zero => simp at hf
      | succ f =>
        have h2 : allWsL l₂ = false :=
          allWsL_eq_false_of_content (hcont l₂ (by simp))

        simp only [sbGo, h2, Bool.false_eq_true, false_and, if_false]
        rw [ih (l :: acc) f (by simpa using Nat.le_of_succ_le_succ hf) (by simp)
          (fun x hx => hcont x (by simp [hx]))]
        simp

/-- Scanning a group followed by a blank line and more content emits the
group and continues after the blank line (one unit of fuel per line of
the group, the last one covering the whole greedy match). -/
theorem sbGo_step : ∀ (g rest acc : List (List Char)) (fuel : Nat),
    (g ++ [] :: rest).length ≤ fuel → g ≠ [] → (∀ l ∈ g, lineHasContent l) →
    rest ≠ [] → (∀ l₀, rest.head? = some l₀ → lineHasContent l₀) →
    sbGo fuel acc (g ++ [] :: rest) =
      (acc.reverse ++ g) :: sbGo (fuel - g.length) [] rest := by
  intro g
  induction g with
  | nil => intro rest acc fuel _ hne _ _ _; exact absurd rfl hne
  | cons l g' ih =>
    intro rest acc fuel hf _ hcont hrne hrhead
    cases g' with
    | nil =>
      cases fuel with
      | zero => simp at hf
      | succ f =>
        obtain ⟨r₀, rs, rfl⟩ := List.exists_cons_of_ne_nil hrne
        have hr₀ : allWsL r₀ = false :=
          allWsL_eq_false_of_content (hrhead r₀ rfl)
        have hdrop : (([] : List Char) :: r₀ :: rs).dropWhile allWsL = r₀ :: rs := by
          rw [List.dropWhile_cons]
          rw [if_pos (by rfl)]
          rw [List.dropWhile_cons]
          simp [hr₀]
        show sbGo (f + 1) acc (l :: [] :: r₀ :: rs) = _
        simp only [sbGo, hdrop]
        rw [if_pos ⟨rfl, by simp⟩]
        simp

    | cons l₂ g'' =>
      cases fuel with
      | zero => simp at hf
      | succ f =>
        have h2 : allWsL l₂ = false :=
          allWsL_eq_false_of_content (hcont l₂ (by simp))
        have hne2 : g'' ++ [] :: rest ≠ [] := by simp
        show sbGo (f + 1) acc (l :: (l₂ :: g'' ++ [] :: rest)) = _
        simp only [sbGo, List.append_eq, h2, Bool.false_eq_true, false_and, if_false]
        rw [← List.cons_append]
        rw [ih rest (l :: acc) f (by simp at hf ⊢; omega) (by simp)
          (fun x hx => hcont x (by simp [hx])) hrne hrhead]
        congr 1
        · simp
        · congr 1
          simp only [List.length_cons]
          omega

theorem icl_head? {α : Type _} (sep : List α) {x : List α} (xs : List (List α))
    (hx : x ≠ []) : (icl sep (x :: xs)).head? = x.head? := by
  obtain ⟨c, x', rfl⟩ := List.exists_cons_of_ne_nil hx
  cases xs with
  | nil => rfl
  | cons y ys => rw [icl_cons₂]; rfl

theorem icl_cons_ne_nil {α : Type _} (sep : List α) {x : List α}
    (xs : List (List α)) (hx : x ≠ []) : icl sep (x :: xs) ≠ [] := by
  obtain ⟨c, x', rfl⟩ := List.exists_cons_of_ne_nil hx
  cases xs with
  | nil => simp [icl]
  | cons y ys => rw [icl_cons₂]; simp

/-- Scanning a separator-joined sequence of groups (all of whose lines
have content) recovers exactly the groups. -/
theorem sbGo_groups : ∀ (gs : List (List (List Char))) (fuel : Nat),
    (icl [[]] gs).length ≤ fuel → gs ≠ [] →
    (∀ g ∈ gs, g ≠ [] ∧ ∀ l ∈ g, lineHasContent l) →
    sbGo fuel [] (icl [[]] gs) = gs := by
  intro gs
  induction gs with
  | nil => intro fuel _ hne _; exact absurd rfl hne
  | cons g gs' ih =>
    intro fuel hf _ hgood
    cases gs' with
    | nil =>
      show sbGo fuel [] g = [g]
      rw [sbGo_final g [] fuel hf (hgood g (by simp)).1 (hgood g (by simp)).2]
      simp
    | cons g₂ gs'' =>
      have hg := hgood g (by simp)
      have hg₂ := hgood g₂ (by simp)
      have hrest_ne : icl [[]] (g₂ :: gs'') ≠ [] :=
        icl_cons_ne_nil _ _ hg₂.1
      have hrest_head : ∀ l₀, (icl [[]] (g₂ :: gs'')).head? = some l₀ →
          lineHasContent l₀ := by
        intro l₀ h
        rw [icl_head? _ _ hg₂.1] at h
        exact hg₂.2 l₀ (List.mem_of_mem_head? (Option.mem_def.mpr h))
      have hshape : icl [([] : List Char)] (g :: g₂ :: gs'') =
          g ++ [] :: icl [[]] (g₂ :: gs'') := by
        rw [icl_cons₂, List.append_assoc]
        rfl
      rw [hshape]
      rw [hshape] at hf
      rw [sbGo_step g (icl [[]] (g₂ :: gs'')) [] fuel hf hg.1 hg.2
        hrest_ne hrest_head]
      rw [ih (fuel - g.length) (by simp at hf ⊢; omega) (by simp)
        (fun x hx => hgood x (by simp [hx]))]
      simp

/-- Splitting a `"\n\n"`-joined list of pieces on lines gives the groups
of lines separated by one empty line. -/
theorem splitNl_icl_nlnl : ∀ (ps : List (List Char)), ps ≠ [] →
    splitNl (icl ['\n', '\n'] ps) = icl [[]] (ps.map splitNl) := by
  intro ps
  induction ps with
  | nil => intro h; exact absurd rfl h
  | cons p ps' ih =>
    intro _
    cases ps' with
    | nil => rfl
    | cons p₂ ps'' =>
      rw [icl_cons₂]
      have hshape : p ++ ['\n', '\n'] ++ icl ['\n', '\n'] (p₂ :: ps'') =
          p ++ '\n' :: ('\n' :: icl ['\n', '\n'] (p₂ :: ps'')) := by
        simp
      rw [hshape]
      show splitCharSep _ _ = _
      rw [splitCharSep_append p _ (by simp)]
      have hcons : splitCharSep (fun x => decide (x = '\n'))
          ('\n' :: icl ['\n', '\n'] (p₂ :: ps'')) =
          [] :: splitCharSep (fun x => decide (x = '\n'))
            (icl ['\n', '\n'] (p₂ :: ps'')) := by
        rw [splitCharSep]
        simp
      rw [hcons]
      rw [show splitCharSep (fun x => decide (x = '\n'))
          (icl ['\n', '\n'] (p₂ :: ps'')) = splitNl (icl ['\n', '\n'] (p₂ :: ps''))
          from rfl]
      rw [ih (by simp)]
      simp only [List.map_cons]
      rw [icl_cons₂]
      simp [splitNl, List.append_assoc]

/-- The central split–join inversion: splitting a `"\n\n"`-joined list of
pieces, every line of which has non-whitespace content, recovers exactly
the pieces. -/
theorem splitBlankL_icl (ps : List (List Char)) (hne : ps ≠ [])
    (hgood : ∀ p ∈ ps, ∀ l ∈ splitNl p, lineHasContent l) :
    splitBlankL (icl ['\n', '\n'] ps) = ps := by
  have hdef : splitBlankL (icl ['\n', '\n'] ps) =
      (sbGo ((splitNl (icl ['\n', '\n'] ps)).length + 1) []
        (splitNl (icl ['\n', '\n'] ps))).map (icl ['\n']) := rfl
  rw [hdef, splitNl_icl_nlnl ps hne]
  rw [sbGo_groups (ps.map splitNl) _ (le_of_lt (Nat.lt_succ_self _))
    (by simpa using hne)
    (by
      intro g hg
      rw [List.mem_map] at hg
      obtain ⟨p, hp, rfl⟩ := hg
      exact ⟨splitCharSep_ne_nil _ p, fun l hl => hgood p hp l hl⟩)]
  rw [List.map_map]
  have : (icl ['\n']) ∘ splitNl = id := by
    funext p
    show icl ['\n'] (splitCharSep (fun x => decide (x = '\n')) p) = p
    exact icl_splitCharSep '\n' p
  rw [this, List.map_id]

/-! ### Refinement loop lemmas -/

theorem refineBlock_index (bs : List Block) (i : Nat) (b : Block) :
    (refineBlock bs i b).index = b.index := rfl

theorem refineBlock_startMs (bs : List Block) (i : Nat) (b : Block) :
    (refineBlock bs i b).startMs = b.startMs := rfl

theorem refineBlock_text (bs : List Block) (i : Nat) (b : Block) :
    (refineBlock bs i b).text = b.text := rfl

theorem refineBlock_endMs (bs : List Block) (i : Nat) (b : Block) :
    (refineBlock bs i b).endMs =
      if i + 1 < bs.length then
        (if (bs.getD (i + 1) default).startMs - 1 ≤ b.startMs
         then b.startMs + 1000
         else (bs.getD (i + 1) default).startMs - 1)
      else b.startMs + 4000 := rfl

theorem refineGo_length (bs : List Block) :
    ∀ (l : List Block) (i : Nat), (refineGo bs i l).length = l.length := by
  intro l
  induction l with
  | nil => intro i; rfl
  | cons b rest ih => intro i; simp [refineGo, ih]

theorem refineGo_getD (bs : List Block) :
    ∀ (l : List Block) (i j : Nat), j < l.length →
      (refineGo bs i l).getD j default = refineBlock bs (i + j) (l.getD j default) := by
  intro l
  induction l with
  | nil => intro i j h; simp at h
  | cons b rest ih =>
    intro i j h
    cases j with
    | zero => simp [refineGo]
    | succ j' =>
      simp only [refineGo, List.getD_cons_succ]
      rw [ih (i + 1) j' (by simpa using Nat.lt_of_succ_lt_succ h)]
      congr 1
      omega

theorem refineEndsL_length (bs : List Block) :
    (refineEndsL bs).length = bs.length := refineGo_length bs bs 0

theorem refineEndsL_getD (bs : List Block) (j : Nat) (h : j < bs.length) :
    (refineEndsL bs).getD j default = refineBlock bs j (bs.getD j default) := by
  have := refineGo_getD bs bs 0 j h
  simpa using this

/-! ### Claims C1, C2, C3 -/

/-- Two well-formed blocks sharing the start time `00:00:05,000`. -/
def coincidentStartSrt : String :=
  "1\n00:00:05,000 --> 00:00:06,000\na\n\n2\n00:00:05,000 --> 00:00:07,000\nb"

/-- Three blocks with strictly increasing start times 0 s, 4.5 s, 9 s. -/
def increasingStartSrt : String :=
  "1\n00:00:00,000 --> 00:00:01,000\nx\n\n2\n00:00:04,500 --> 00:00:05,000\ny\n\n3\n00:00:09,000 --> 00:00:09,500\nz"

/-- C1 (counterexample): the refined output of `refineSrtTiming` does
*not* satisfy `end(i) + 1 = start(i+1)` for every adjacent pair on every
input: with two blocks both starting at 5000 ms, the first block's end
falls back to 6000 ms, so `end(0) + 1 = 6001 ≠ 5000 = start(1)`. -/
theorem c1_no_gap_counterexample :
    (refinedBlocksOf coincidentStartSrt).length = 2 ∧
    ((refinedBlocksOf coincidentStartSrt).getD 0 default).endMs + 1 ≠
      ((refinedBlocksOf coincidentStartSrt).getD 1 default).startMs := by
  constructor
  · decide
  · decide

/-- C1 (amended): for every input, every adjacent pair of refined blocks
whose start times increase by more than 1 ms satisfies
`end(i) + 1 = start(i+1)`; only coincident or near-coincident (≤ 1 ms
apart) or inverted start times fall back to the 1000 ms minimum and may
produce a gap or an overlap. -/
theorem c1_no_gap_amended (s : String) (i : Nat)
    (hi : i + 1 < (refinedBlocksOf s).length)
    (hgap : ((refinedBlocksOf s).getD i default).startMs + 1 <
      ((refinedBlocksOf s).getD (i + 1) default).startMs) :
    ((refinedBlocksOf s).getD i default).endMs + 1 =
      ((refinedBlocksOf s).getD (i + 1) default).startMs := by
  unfold refinedBlocksOf at *
  set P := parsedBlocksOf s with hP
  rw [refineEndsL_length] at hi
  rw [refineEndsL_getD P i (by omega), refineEndsL_getD P (i + 1) (by omega)] at *
  rw [refineBlock_startMs, refineBlock_startMs] at hgap
  rw [refineBlock_endMs, refineBlock_startMs]
  rw [if_pos (by omega)]
  rw [if_neg (by omega)]
  omega

/-- C1 (witness for the amended theorem): on three strictly increasing
blocks the first two refined blocks touch exactly. -/
theorem c1_no_gap_witness :
    (0 + 1 < (refinedBlocksOf increasingStartSrt).length ∧
      ((refinedBlocksOf increasingStartSrt).getD 0 default).startMs + 1 <
        ((refinedBlocksOf increasingStartSrt).getD 1 default).startMs) ∧
    ((refinedBlocksOf increasingStartSrt).getD 0 default).endMs + 1 =
      ((refinedBlocksOf increasingStartSrt).getD 1 default).startMs :=
  ⟨⟨by decide, by decide⟩, c1_no_gap_amended increasingStartSrt 0 (by decide) (by decide)⟩

/-- Blocks with start times 0 ms, 4500 ms, 9000 ms (the claim's example;
the input end times are arbitrary since refinement discards them). -/
def exampleStartBlocks : List Block :=
  [⟨"1".data, 0, 700, "a".data⟩, ⟨"2".data, 4500, 5000, "b".data⟩,
    ⟨"3".data, 9000, 9100, "c".data⟩]

/-- C2: for every ordered block sequence, the refined end of block `i` is
`start(i+1) − 1`, except that when that value is `≤ start(i)` it falls
back to `start(i) + 1000`; the last block (including a singleton
sequence) ends at `start + 4000`.  In particular starts `[0, 4500, 9000]`
refine to ends `[4499, 8999, 13000]`. -/
theorem c2_end_computation :
    (∀ (bs : List Block) (i : Nat), i < bs.length →
      ((refineEndsL bs).getD i default).endMs =
        (if i + 1 < bs.length then
          (if (bs.getD (i + 1) default).startMs - 1 ≤ (bs.getD i default).startMs
           then (bs.getD i default).startMs + 1000
           else (bs.getD (i + 1) default).startMs - 1)
         else (bs.getD i default).startMs + 4000)) ∧
    (refineEndsL exampleStartBlocks).map Block.endMs = [4499, 8999, 13000] := by
  constructor
  · intro bs i h
    rw [refineEndsL_getD bs i h, refineBlock_endMs]
  · decide

/-- C2 (witness): the general formula applied to the example blocks at
index 0. -/
theorem c2_end_computation_witness :
    0 < exampleStartBlocks.length ∧
    ((refineEndsL exampleStartBlocks).getD 0 default).endMs =
      (if 0 + 1 < exampleStartBlocks.length then
        (if (exampleStartBlocks.getD (0 + 1) default).startMs - 1 ≤
            (exampleStartBlocks.getD 0 default).startMs
         then (exampleStartBlocks.getD 0 default).startMs + 1000
         else (exampleStartBlocks.getD (0 + 1) default).startMs - 1)
       else (exampleStartBlocks.getD 0 default).startMs + 4000) :=
  ⟨by decide, c2_end_computation.1 exampleStartBlocks 0 (by decide)⟩

/-- C3: refinement never changes a block's start time, index label or
text: the refined sequence has the same length as the parsed sequence and
agrees with it on `startMs`, `index` and `text` at every position (also
stated via `getD`, which makes the claim trivial beyond the length). -/
theorem c3_start_anchoring (s : String) (i : Nat) :
    (refinedBlocksOf s).length = (parsedBlocksOf s).length ∧
    ((refinedBlocksOf s).getD i default).startMs =
      ((parsedBlocksOf s).getD i default).startMs ∧
    ((refinedBlocksOf s).getD i default).index =
      ((parsedBlocksOf s).getD i default).index ∧
    ((refinedBlocksOf s).getD i default).text =
      ((parsedBlocksOf s).getD i default).text := by
  unfold refinedBlocksOf
  refine ⟨refineEndsL_length _, ?_⟩
  by_cases h : i < (parsedBlocksOf s).length
  · rw [refineEndsL_getD _ i h]
    exact ⟨refineBlock_startMs _ _ _, refineBlock_index _ _ _, refineBlock_text _ _ _⟩
  · rw [List.getD_eq_default, List.getD_eq_default]
    · exact ⟨rfl, rfl, rfl⟩
    · omega
    · rw [refineEndsL_length]; omega

/-! ### Chunking lemmas -/

/-- The first character exists and is not JavaScript whitespace. -/
def headNonWs (l : List Char) : Bool :=
  match l with
  | [] => false
  | c :: _ => !isJsWs c

/-- A line that starts and ends with a non-whitespace character (in
particular it is non-empty). -/
def goodLine (l : List Char) : Prop :=
  headNonWs l = true ∧ headNonWs l.reverse = true

instance (l : List Char) : Decidable (goodLine l) := by
  unfold goodLine; infer_instance

theorem goodLine_ne_nil {l : List Char} (h : goodLine l) : l ≠ [] := by
  intro h0; subst h0; simp [goodLine, headNonWs] at h

theorem goodLine_head {l : List Char} (h : goodLine l) :
    ∀ c, l.head? = some c → isJsWs c = false := by
  intro c hc
  obtain ⟨d, l', rfl⟩ := List.exists_cons_of_ne_nil (goodLine_ne_nil h)
  simp at hc
  subst hc
  have := h.1
  simpa [headNonWs] using this

theorem goodLine_getLast {l : List Char} (h : goodLine l) :
    ∀ c, l.getLast? = some c → isJsWs c = false := by
  intro c hc
  have h2 := h.2
  rw [← List.head?_reverse] at hc
  obtain ⟨d, l', hl⟩ := List.exists_cons_of_ne_nil
    (l := l.reverse) (by simpa using goodLine_ne_nil h)
  rw [hl] at hc h2
  simp at hc
  subst hc
  simpa [headNonWs] using h2

theorem goodLine_content {l : List Char} (h : goodLine l) : lineHasContent l := by
  obtain ⟨d, l', rfl⟩ := List.exists_cons_of_ne_nil (goodLine_ne_nil h)
  exact ⟨d, by simp, goodLine_head h d rfl⟩

theorem utf16Len_pos {l : List Char} (h : l ≠ []) : 0 < utf16Len l := by
  obtain ⟨c, l', rfl⟩ := List.exists_cons_of_ne_nil h
  simp only [utf16Len, List.map_cons, List.sum_cons]
  split <;> omega

theorem utf16Len_nil : utf16Len [] = 0 := rfl

theorem icl_append {α : Type _} (sep : List α) :
    ∀ (A B : List (List α)), A ≠ [] → B ≠ [] →
      icl sep (A ++ B) = icl sep A ++ sep ++ icl sep B := by
  intro A
  induction A with
  | nil => intro B h _; exact absurd rfl h
  | cons a A' ih =>
    intro B _ hB
    cases A' with
    | nil =>
      obtain ⟨b, B', rfl⟩ := List.exists_cons_of_ne_nil hB
      rw [List.singleton_append, icl_cons₂]
      rfl
    | cons a₂ A'' =>
      show icl sep (a :: a₂ :: (A'' ++ B)) = _
      rw [icl_cons₂]
      rw [show icl sep (a₂ :: (A'' ++ B)) = icl sep ((a₂ :: A'') ++ B) from rfl]
      rw [ih B (by simp) hB, icl_cons₂]
      simp [List.append_assoc]

theorem icl_getLast? {α : Type _} (sep : List α) :
    ∀ (xs : List (List α)) (x : List α), x ≠ [] →
      (icl sep (xs ++ [x])).getLast? = x.getLast? := by
  intro xs
  induction xs with
  | nil => intro x _; rfl
  | cons y xs' ih =>
    intro x hx
    have hIH := ih x hx
    have hne : icl sep (xs' ++ [x]) ≠ [] := by
      intro h0
      rw [h0] at hIH
      rw [List.getLast?_eq_getLast x hx] at hIH
      simp at hIH
    obtain ⟨w, ws, hw⟩ := List.exists_cons_of_ne_nil
      (List.append_ne_nil_of_right_ne_nil xs' (by simp) : xs' ++ [x] ≠ [])
    rw [List.cons_append, hw, icl_cons₂, ← hw]
    rw [List.getLast?_append, List.getLast?_append, hIH]
    rw [List.getLast?_eq_getLast x hx]
    rfl

/-- All-whitespace prefixes do not affect `trim`. -/
theorem trimL_ws_drop {pre : List Char} (l : List Char)
    (h : ∀ c ∈ pre, isJsWs c = true) : trimL (pre ++ l) = trimL l := by
  unfold trimL
  rw [ldw_ws_drop _ h]

/-- A newline-join of good lines starts and ends with non-whitespace, so
`trim` leaves it unchanged. -/
theorem trimL_icl_goodLines {seg : List (List Char)} (hne : seg ≠ [])
    (hgood : ∀ l ∈ seg, goodLine l) : trimL (icl ['\n'] seg) = icl ['\n'] seg := by
  obtain ⟨l₀, seg', rfl⟩ := List.exists_cons_of_ne_nil hne
  have h₀ := hgood l₀ (by simp)
  rcases List.eq_nil_or_concat seg' with rfl | ⟨seg'', x, rfl⟩
  · exact trimL_eq_self (goodLine_ne_nil h₀) (goodLine_head h₀) (goodLine_getLast h₀)
  · simp only [List.concat_eq_append] at hgood ⊢
    have hx : goodLine x := hgood x (by simp)
    have hicl_ne : icl ['\n'] (l₀ :: (seg'' ++ [x])) ≠ [] :=
      icl_cons_ne_nil _ _ (goodLine_ne_nil h₀)
    apply trimL_eq_self hicl_ne
    · intro c hc
      rw [icl_head? _ _ (goodLine_ne_nil h₀)] at hc
      exact goodLine_head h₀ c hc
    · intro c hc
      rw [show l₀ :: (seg'' ++ [x]) = (l₀ :: seg'') ++ [x] from rfl] at hc
      rw [icl_getLast? _ _ x (goodLine_ne_nil hx)] at hc
      exact goodLine_getLast hx c hc

/-- Invariant form of the chunk loop: if the accumulator is an
all-whitespace prefix followed by the newline-join of the good lines
already accumulated, then joining the produced chunks by newline
reproduces the accumulated lines followed by the remaining lines. -/
theorem chunkLoop_join (maxLen : Nat) :
    ∀ (ls : List (List Char)) (pre : List Char) (seg : List (List Char)),
      (∀ c ∈ pre, isJsWs c = true) → seg ≠ [] → (∀ l ∈ seg, goodLine l) →
      (∀ l ∈ ls, goodLine l) →
      icl ['\n'] (chunkLoopL maxLen ls (pre ++ icl ['\n'] seg)) =
        icl ['\n'] (seg ++ ls) := by
  intro ls
  induction ls with
  | nil =>
    intro pre seg hpre hsegne hseg _
    rw [chunkLoopL]
    rw [trimL_ws_drop _ hpre, trimL_icl_goodLines hsegne hseg]
    have hne : icl ['\n'] seg ≠ [] := by
      obtain ⟨l₀, seg', rfl⟩ := List.exists_cons_of_ne_nil hsegne
      exact icl_cons_ne_nil _ _ (goodLine_ne_nil (hseg l₀ (by simp)))
    rw [if_pos (utf16Len_pos hne)]
    rw [List.append_nil]
    rfl
  | cons line rest ih =>
    intro pre seg hpre hsegne hseg hls
    have hline : goodLine line := hls line (by simp)
    rw [chunkLoopL]
    split
    · rw [trimL_ws_drop _ hpre, trimL_icl_goodLines hsegne hseg]
      have hX : icl ['\n'] (chunkLoopL maxLen rest line) =
          icl ['\n'] ([line] ++ rest) := by
        have := ih [] [line] (by simp) (by simp)
          (by intro l hl; simp at hl; subst hl; exact hline)
          (fun l hl => hls l (by simp [hl]))
        simpa using this
      have hCLne : chunkLoopL maxLen rest line ≠ [] := by
        intro h0
        rw [h0] at hX
        have : icl ['\n'] ([line] ++ rest) ≠ [] := by
          rw [List.singleton_append]
          exact icl_cons_ne_nil _ _ (goodLine_ne_nil hline)
        exact this hX.symm
      obtain ⟨c₀, CL', hCL⟩ := List.exists_cons_of_ne_nil hCLne
      rw [hCL, icl_cons₂, ← hCL, hX]
      rw [show seg ++ line :: rest = seg ++ ([line] ++ rest) from rfl]
      rw [icl_append _ seg ([line] ++ rest) hsegne (by simp)]
    · have hshape : (pre ++ icl ['\n'] seg) ++ '\n' :: line =
          pre ++ icl ['\n'] (seg ++ [line]) := by
        rw [icl_append _ seg [line] hsegne (by simp)]
        simp [List.append_assoc, icl]
      rw [hshape]
      rw [ih pre (seg ++ [line]) hpre (by simp)
        (by
          intro l hl
          rcases List.mem_append.mp hl with h | h
          · exact hseg l h
          · simp at h; subst h; exact hline)
        (fun l hl => hls l (by simp [hl]))]
      rw [List.append_assoc]
      rfl

theorem utf16Len_cons (c : Char) (l : List Char) :
    utf16Len (c :: l) = (if 0x10000 ≤ c.toNat then 2 else 1) + utf16Len l := by
  simp [utf16Len]

/-- `windows.join("\n")`: the concatenation of the windows rejoined by
newline. -/
def jsJoinNl (xs : List String) : String :=
  String.mk (icl ['\n'] (xs.map String.data))

/-! ### Claims C4, C5 -/

/-- C4 (counterexample): chunking trims each window, so a transcript
whose single line starts with a space is not reproduced: chunking `" a"`
with `maxChars = 6000` yields the single window `"a"`, and rejoining
gives `"a" ≠ " a"` — a character was dropped. -/
theorem c4_chunk_completeness_counterexample :
    chunkTranscript " a" 6000 = ["a"] ∧ jsJoinNl (chunkTranscript " a" 6000) ≠ " a" := by
  constructor
  · decide
  · decide

/-- C4 (amended): for every transcript all of whose lines start and end
with a non-whitespace character, and whose first line is strictly shorter
than `maxChars` (so that no window boundary whitespace is trimmed away
and no leading empty window is pushed), rejoining the windows with
newline reproduces the transcript exactly; no line is ever split across
windows. -/
theorem c4_chunk_completeness_amended (text : String) (maxLen : Nat)
    (hlines : ∀ l ∈ splitNl text.data, goodLine l)
    (hfirst : utf16Len ((splitNl text.data).getD 0 []) + 1 ≤ maxLen) :
    jsJoinNl (chunkTranscript text maxLen) = text := by
  unfold jsJoinNl chunkTranscript
  rw [List.map_map]
  have hid : String.data ∘ String.mk = id := funext fun l => rfl
  rw [hid, List.map_id]
  have hjoin : icl ['\n'] (chunkTranscriptL text.data maxLen) = text.data := by
    unfold chunkTranscriptL
    obtain ⟨L0, rest, hsplit⟩ := List.exists_cons_of_ne_nil
      (show splitNl text.data ≠ [] from splitCharSep_ne_nil _ _)
    rw [hsplit]
    rw [hsplit] at hlines hfirst
    have hL0 : goodLine L0 := hlines L0 (by simp)
    rw [chunkLoopL]
    rw [if_neg (by
      rw [List.nil_append, utf16Len_cons]
      simp only [List.getD_cons_zero] at hfirst
      simp only [show (0x10000 ≤ '\n'.toNat) = False by decide, if_false]
      omega)]
    have hshape : ([] : List Char) ++ '\n' :: L0 = ['\n'] ++ icl ['\n'] [L0] := rfl
    rw [hshape]
    rw [chunkLoop_join maxLen rest ['\n'] [L0] (by decide) (by simp)
      (by intro l hl; simp at hl; subst hl; exact hL0)
      (fun l hl => hlines l (by simp [hl]))]
    rw [show ([L0] ++ rest : List (List Char)) = L0 :: rest from rfl, ← hsplit]
    exact icl_splitCharSep '\n' text.data
  rw [hjoin]

/-- C4 (witness for the amended theorem): a two-line transcript is
reproduced exactly. -/
theorem c4_chunk_completeness_witness :
    ((∀ l ∈ splitNl "ab\ncd".data, goodLine l) ∧
      utf16Len ((splitNl "ab\ncd".data).getD 0 []) + 1 ≤ 6000) ∧
    jsJoinNl (chunkTranscript "ab\ncd" 6000) = "ab\ncd" :=
  ⟨⟨by decide, by decide⟩,
    c4_chunk_completeness_amended "ab\ncd" 6000 (by decide) (by decide)⟩

/-- C5 (failing input): the guard that suppresses whitespace-only windows
exists only on the final flush, not on the in-loop push: when the very
first line already overflows `maxChars`, the loop pushes the trimmed
empty accumulator as a window.  A single 4-character line with
`maxChars = 3` (the same mechanism as the claim's 7000-character line
with `maxChars = 6000`) yields two windows, the first of which is empty
— contradicting both "every window contains a non-whitespace character"
and "exactly one window". -/
theorem c5_empty_window_bug :
    chunkTranscript "aaaa" 3 = ["", "aaaa"] ∧
    ¬ lineHasContent (((chunkTranscript "aaaa" 3).getD 0 "").data) := by
  constructor
  · decide
  · decide

/-! ### Claim C8 -/

/-- C8 (counterexample): the accepted spellings do *not* all parse to
4500 ms.  `toMs` reads the 4th field as an integer millisecond count, so
`"00:00:04.5"` parses to 4005 ms (not 4500), and the bare form
`"00:00:04500"` parses its third field as 4500 seconds, i.e. 4500000 ms
(not 4500) — only `"00:00:04,500"` parses to 4500. -/
theorem c8_parse_spellings_counterexample :
    toMs "00:00:04.5" = 4005 ∧ toMs "00:00:04.5" ≠ 4500 ∧
    toMs "00:00:04500" = 4500000 ∧ toMs "00:00:04500" ≠ 4500 := by
  refine ⟨by decide, by decide, by decide, by decide⟩

/-- C8 (amended): `toMs "00:00:04,500" = 4500`; the bare form yields
4500 only after `normalizeTimestamps` rewrites it to the comma form;
the fractional spelling `"00:00:04.5"` yields 4005 both raw and after
normalization, because the fourth field is taken as an integer
millisecond count and `normalizeTimestamps` left-pads `"5"` to `"005"`
rather than scaling it. -/
theorem c8_parse_spellings_amended :
    toMs "00:00:04,500" = 4500 ∧
    toMs (normalizeTimestamps "00:00:04500") = 4500 ∧
    normalizeTimestamps "00:00:04500" = "00:00:04,500" ∧
    toMs "00:00:04.5" = 4005 ∧
    normalizeTimestamps "00:00:04.5" = "00:00:04,005" ∧
    toMs (normalizeTimestamps "00:00:04.5") = 4005 ∧
    toMs "00:00:04500" = 4500000 := by
  refine ⟨by decide, by decide, by decide, by decide, by decide, by decide, by decide⟩

/-! ### Merge lemmas and claim C6 -/

/-- The blocks of all windows, in window order (spec side of C6). -/
def allPiecesL (srts : List (List Char)) : List (List Char) :=
  srts.flatMap fun w => splitBlankL (trimL w)

/-- One merged block as emitted by `mergeSrtChunks` for the `k`-th kept
block overall (0-based): index label `k+1`, the block's own time line and
text, verbatim. -/
def renderBlock (k : Nat) (p : List Char) : List Char :=
  natToChars (k + 1) ++ '\n' :: (splitNl p).getD 1 [] ++
    '\n' :: icl ['\n'] ((splitNl p).drop 2) ++ ['\n', '\n']

theorem merge_inner : ∀ (blocks : List (List Char)) (out : List Char) (n : Nat),
    (∀ p ∈ blocks, 2 ≤ (splitNl p).length) →
    blocks.foldl mergeBlockStep (out, n) =
      (out ++ ((List.enumFrom n blocks).map fun pr => renderBlock pr.1 pr.2).flatten,
        n + blocks.length) := by
  intro blocks
  induction blocks with
  | nil => intro out n _; simp
  | cons b bs ih =>
    intro out n h
    have hb : ¬ (splitNl b).length < 2 := by
      have := h b (by simp)
      omega
    rw [List.foldl_cons]
    rw [show mergeBlockStep (out, n) b =
      (out ++ renderBlock n b, n + 1) by
        unfold mergeBlockStep renderBlock
        rw [if_neg hb]
        simp [List.append_assoc]]
    rw [ih (out ++ renderBlock n b) (n + 1) (fun p hp => h p (by simp [hp]))]
    rw [List.enumFrom_cons]
    simp [List.append_assoc]
    omega

theorem merge_outer : ∀ (srts : List (List Char)) (out : List Char) (n : Nat),
    (∀ w ∈ srts, ∀ p ∈ splitBlankL (trimL w), 2 ≤ (splitNl p).length) →
    srts.foldl (fun acc srt => (splitBlankL (trimL srt)).foldl mergeBlockStep acc)
        (out, n) =
      (out ++ ((List.enumFrom n (allPiecesL srts)).map fun pr =>
        renderBlock pr.1 pr.2).flatten, n + (allPiecesL srts).length) := by
  intro srts
  induction srts with
  | nil => intro out n _; simp [allPiecesL]
  | cons w ws ih =>
    intro out n h
    rw [List.foldl_cons]
    rw [merge_inner _ out n (h w (by simp))]
    rw [ih _ _ (fun w' hw' p hp => h w' (by simp [hw']) p hp)]
    have hall : allPiecesL (w :: ws) =
        splitBlankL (trimL w) ++ allPiecesL ws := by
      simp [allPiecesL]
    rw [hall, List.enumFrom_append]
    simp [List.append_assoc]
    omega

/-- C6: when every block of every window is well-formed (at least three
lines and a `" --> "` separator in its time line), `mergeSrtChunks`
produces exactly the concatenation of all windows' blocks in window
order, each rendered with its original time line and text lines verbatim
and its index label replaced by the dense 0-based-position-plus-1
sequence `1..M` (`List.enumFrom 0`); no timestamp arithmetic is applied
anywhere.  (The final result is trimmed, as the source does.) -/
theorem c6_merge_reindexing (srts : List String)
    (hwf : ∀ w ∈ srts, ∀ p ∈ splitBlankL (trimL w.data),
      3 ≤ (splitNl p).length ∧ 2 ≤ (splitArrow ((splitNl p).getD 1 [])).length) :
    mergeSrtChunks srts =
      String.mk (trimL (((List.enumFrom 0 (allPiecesL (srts.map String.data))).map
        fun pr => renderBlock pr.1 pr.2).flatten)) := by
  unfold mergeSrtChunks mergeSrtChunksL
  rw [merge_outer (srts.map String.data) [] 0 (by
    intro w hw p hp
    rw [List.mem_map] at hw
    obtain ⟨ws, hws, rfl⟩ := hw
    have := (hwf ws hws p hp).1
    omega)]
  simp

/-- C6 (witness): two windows with junk index labels and 3 blocks total
are merged into indices 1, 2, 3. -/
theorem c6_merge_reindexing_witness :
    (∀ w ∈ ["7\n00:00:00,000 --> 00:00:01,000\na\n\nx9\n00:00:01,500 --> 00:00:02,000\nb",
            "0\n00:00:02,500 --> 00:00:03,000\nc"],
      ∀ p ∈ splitBlankL (trimL w.data),
        3 ≤ (splitNl p).length ∧ 2 ≤ (splitArrow ((splitNl p).getD 1 [])).length) ∧
    mergeSrtChunks
        ["7\n00:00:00,000 --> 00:00:01,000\na\n\nx9\n00:00:01,500 --> 00:00:02,000\nb",
          "0\n00:00:02,500 --> 00:00:03,000\nc"] =
      String.mk (trimL (((List.enumFrom 0 (allPiecesL
        (["7\n00:00:00,000 --> 00:00:01,000\na\n\nx9\n00:00:01,500 --> 00:00:02,000\nb",
          "0\n00:00:02,500 --> 00:00:03,000\nc"].map String.data))).map
        fun pr => renderBlock pr.1 pr.2).flatten)) :=
  ⟨by decide, c6_merge_reindexing _ (by decide)⟩

/-! ### Generator pipeline lemmas and claims C7, C9 -/

/-- The post-processing applied to one raw generator response inside the
per-window loop of `generateFullSrt`: fence strip, chemistry patch, trim,
timing refinement (inside `generateSrt`), then `normalizeTimestamps`
(applied by `generateFullSrt` *after* `generateSrt` returns). -/
def windowPost (raw : String) : String :=
  normalizeTimestamps (refineSrtTiming (String.mk (trimL (chemPatchL (stripFencesL raw.data)))))

theorem generateSrtModel_eq (gen : String → Except String String) (c : String) :
    generateSrtModel gen c = (gen c).map fun raw =>
      refineSrtTiming (String.mk (trimL (chemPatchL (stripFencesL raw.data)))) := by
  unfold generateSrtModel
  cases gen c <;> rfl

/-- The whole pipeline, in closed form: map the per-window composite over
the windows (failing fast on the first generator error) and merge. -/
theorem generateFullSrtModel_eq (gen : String → Except String String) (t : String) :
    generateFullSrtModel gen t =
      ((chunkTranscript t).mapM fun c => (gen c).map windowPost).map mergeSrtChunks := by
  unfold generateFullSrtModel
  have hFG : (fun chunk => do
      let srt ← generateSrtModel gen chunk
      pure (normalizeTimestamps srt)) = fun c => (gen c).map windowPost := by
    funext c
    rw [generateSrtModel_eq]
    cases gen c <;> rfl
  rw [hFG]
  show (do
    let results ← (chunkTranscript t).mapM fun c => (gen c).map windowPost
    pure (mergeSrtChunks results)) = _
  cases hm : (chunkTranscript t).mapM fun c => (gen c).map windowPost with
  | error e => rfl
  | ok rs => rfl

/-- A generator response containing a block in the bare timestamp form
`00:00:04500`. -/
def bareFormSrt : String :=
  "1\n00:00:00,000 --> 00:00:01,000\na\n\n2\n00:00:04500 --> 00:00:05,000\nb"

/-- C7 (counterexample): normalization runs *after* refinement, not
before.  On a response containing the bare form `00:00:04500`, the
window's contribution is `normalize (refine raw)` — which reads the bare
form as 4500 s and produces a 75-minute block — and differs from the
claimed `refine (normalize (fence-stripped raw))`, which would read it
as 4.5 s. -/
theorem c7_normalize_order_counterexample :
    generateFullSrtModel (fun _ => Except.ok bareFormSrt) "hi" =
      Except.ok (mergeSrtChunks [normalizeTimestamps (refineSrtTiming bareFormSrt)]) ∧
    normalizeTimestamps (refineSrtTiming bareFormSrt) ≠
      refineSrtTiming (normalizeTimestamps (String.mk (stripFencesL bareFormSrt.data))) := by
  constructor
  · rfl
  · decide

/-- C7 (amended): in the per-window pipeline, `normalizeTimestamps` is
applied to each window's generator output *after* fence stripping,
chemistry patching, trimming and timing refinement: each window's
contribution equals
`normalizeTimestamps (refineSrtTiming (trim (chemPatch (stripFences raw))))`,
and the pipeline is exactly the fail-fast map of that composite followed
by `mergeSrtChunks`. -/
theorem c7_normalize_order_amended (gen : String → Except String String) (t : String) :
    generateFullSrtModel gen t =
      ((chunkTranscript t).mapM fun c => (gen c).map windowPost).map mergeSrtChunks :=
  generateFullSrtModel_eq gen t

theorem mapM_ok_of_all_ok (gen : String → Except String String)
    (f : String → String) :
    ∀ (l : List String), (∀ c ∈ l, gen c = Except.ok (f c)) →
      (l.mapM fun c => (gen c).map windowPost) =
        Except.ok (l.map fun c => windowPost (f c)) := by
  intro l
  induction l with
  | nil => intro _; rfl
  | cons c cs ih =>
    intro h
    rw [List.mapM_cons]
    rw [h c (by simp), ih (fun x hx => h x (by simp [hx]))]
    rfl

theorem mapM_error_of_exists_fail (gen : String → Except String String) :
    ∀ (l : List String), (∃ c ∈ l, ∀ r, gen c ≠ Except.ok r) →
      ∃ e, (l.mapM fun c => (gen c).map windowPost) = Except.error e := by
  intro l
  induction l with
  | nil => intro ⟨c, hc, _⟩; simp at hc
  | cons c₀ cs ih =>
    intro ⟨c, hc, hfail⟩
    rw [List.mapM_cons]
    cases hg : gen c₀ with
    | error e => exact ⟨e, rfl⟩
    | ok r =>
      rcases List.mem_cons.mp hc with rfl | hmem
      · exact absurd hg (hfail r)
      · obtain ⟨e, he⟩ := ih ⟨c, hmem, hfail⟩
        refine ⟨e, ?_⟩
        show (do
          let as ← cs.mapM fun c => (gen c).map windowPost
          pure (windowPost r :: as) : Except String (List String)) = Except.error e
        rw [he]
        rfl

/-- C9: failure semantics of the whole-transcript pipeline.  If the
generator fails (never returns text) for some window of the transcript,
`generateFullSrt` returns an error — no partial track.  If the generator
returns text `f c` for every window `c`, the pipeline returns exactly the
single merged track of all windows' post-processed contributions. -/
theorem c9_failure_semantics (gen : String → Except String String)
    (t : String) (f : String → String) :
    ((∃ c ∈ chunkTranscript t, ∀ r, gen c ≠ Except.ok r) →
      ∃ e, generateFullSrtModel gen t = Except.error e) ∧
    ((∀ c ∈ chunkTranscript t, gen c = Except.ok (f c)) →
      generateFullSrtModel gen t =
        Except.ok (mergeSrtChunks ((chunkTranscript t).map fun c => windowPost (f c)))) := by
  constructor
  · intro h
    obtain ⟨e, he⟩ := mapM_error_of_exists_fail gen (chunkTranscript t) h
    refine ⟨e, ?_⟩
    rw [generateFullSrtModel_eq, he]
    rfl
  · intro h
    rw [generateFullSrtModel_eq, mapM_ok_of_all_ok gen f (chunkTranscript t) h]
    rfl

/-- C9 (witness): a generator that always fails makes the pipeline fail;
a generator that always answers with a fixed track makes it return the
full merged output. -/
theorem c9_failure_semantics_witness :
    (∃ e, generateFullSrtModel (fun _ => Except.error "boom") "hi" = Except.error e) ∧
    generateFullSrtModel (fun _ => Except.ok "1\n00:00:00,000 --> 00:00:01,000\nhello") "hi" =
      Except.ok (mergeSrtChunks ((chunkTranscript "hi").map fun _ =>
        windowPost "1\n00:00:00,000 --> 00:00:01,000\nhello")) :=
  ⟨(c9_failure_semantics (fun _ => Except.error "boom") "hi" id).1
      ⟨"hi", by decide, fun r h => Except.noConfusion h⟩,
    (c9_failure_semantics (fun _ => Except.ok "1\n00:00:00,000 --> 00:00:01,000\nhello")
        "hi" (fun _ => "1\n00:00:00,000 --> 00:00:01,000\nhello")).2
      (fun c _ => rfl)⟩

/-! ### Digit and `toStr`/`toMs` round-trip lemmas -/

/-- Every character of the list is an ASCII digit. -/
def allDigits (l : List Char) : Prop := ∀ c ∈ l, isDigitC c = true

theorem not_ws_of_digit {c : Char} (h : isDigitC c = true) : isJsWs c = false := by
  unfold isDigitC at h
  rw [decide_eq_true_eq] at h
  unfold isJsWs
  rw [decide_eq_false_iff_not]
  omega

theorem digitChar_spec (d : Nat) (h : d < 10) :
    isDigitC (Char.ofNat (48 + d)) = true ∧ (Char.ofNat (48 + d)).toNat = 48 + d := by
  interval_cases d <;> exact ⟨by decide, by decide⟩

theorem natToCharsFuel_digits : ∀ (fuel n : Nat) (c : Char),
    c ∈ natToCharsFuel fuel n → isDigitC c = true := by
  intro fuel
  induction fuel with
  | zero =>
    intro n c hc
    simp [natToCharsFuel] at hc
    subst hc
    exact (digitChar_spec (n % 10) (Nat.mod_lt _ (by omega))).1
  | succ f ih =>
    intro n c hc
    rw [natToCharsFuel] at hc
    split at hc
    · simp at hc
      subst hc
      exact (digitChar_spec n (by omega)).1
    · rcases List.mem_append.mp hc with h | h
      · exact ih _ c h
      · simp at h
        subst h
        exact (digitChar_spec (n % 10) (Nat.mod_lt _ (by omega))).1

theorem natToCharsFuel_ne_nil (fuel n : Nat) : natToCharsFuel fuel n ≠ [] := by
  cases fuel with
  | zero => simp [natToCharsFuel]
  | succ f =>
    rw [natToCharsFuel]
    split
    · simp
    · simp

theorem digitsVal_append_single (l : List Char) (c : Char) :
    digitsVal (l ++ [c]) = 10 * digitsVal l + (c.toNat - 48) := by
  unfold digitsVal
  rw [List.foldl_append]
  rfl

theorem natToCharsFuel_val : ∀ (fuel n : Nat), n ≤ fuel →
    digitsVal (natToCharsFuel fuel n) = n := by
  intro fuel
  induction fuel with
  | zero =>
    intro n h
    have : n = 0 := by omega
    subst this
    show digitsVal [Char.ofNat (48 + 0 % 10)] = 0
    simp [digitsVal, (digitChar_spec 0 (by omega)).2]
  | succ f ih =>
    intro n h
    rw [natToCharsFuel]
    split
    · rename_i hlt
      show digitsVal [Char.ofNat (48 + n)] = n
      simp [digitsVal, (digitChar_spec n hlt).2]
    · rename_i hge
      rw [digitsVal_append_single]
      rw [ih (n / 10) (by omega)]
      rw [(digitChar_spec (n % 10) (Nat.mod_lt _ (by omega))).2]
      omega

theorem natToChars_digits {n : Nat} : allDigits (natToChars n) :=
  fun c hc => natToCharsFuel_digits n n c hc

theorem natToChars_ne_nil (n : Nat) : natToChars n ≠ [] := natToCharsFuel_ne_nil n n

theorem natToChars_val (n : Nat) : digitsVal (natToChars n) = n :=
  natToCharsFuel_val n n (le_refl n)

theorem padL_digits {l : List Char} (k : Nat) (h : allDigits l) :
    allDigits (padL k '0' l) := by
  intro c hc
  rcases List.mem_append.mp hc with h' | h'
  · have := List.eq_of_mem_replicate h'
    subst this
    decide
  · exact h c h'

theorem padL_ne_nil {l : List Char} (k : Nat) (h : l ≠ []) : padL k '0' l ≠ [] := by
  unfold padL
  exact List.append_ne_nil_of_right_ne_nil _ h

theorem digitsVal_padL (k : Nat) (l : List Char) :
    digitsVal (padL k '0' l) = digitsVal l := by
  unfold padL digitsVal
  rw [List.foldl_append]
  congr 1
  generalize k - l.length = m
  induction m with
  | zero => rfl
  | succ m' ih =>
    rw [List.replicate_succ, List.foldl_cons]
    have h0 : (10 * 0 + ('0'.toNat - 48)) = 0 := by decide
    rw [h0]
    exact ih

theorem stripSign_digit {c : Char} (cs : List Char) (h : isDigitC c = true) :
    stripSign (c :: cs) = (1, c :: cs) := by
  have hcrange : 48 ≤ c.toNat ∧ c.toNat ≤ 57 := by
    unfold isDigitC at h
    rwa [decide_eq_true_eq] at h
  unfold stripSign
  split
  · rename_i r heq
    injection heq with h1 h2
    subst h1
    exact absurd hcrange (by decide)
  · rename_i r heq
    injection heq with h1 h2
    subst h1
    exact absurd hcrange (by decide)
  · rfl

/-- `parseInt` on a non-empty all-digit string returns its decimal value. -/
theorem parseIntJS_digits : ∀ {l : List Char}, l ≠ [] → allDigits l →
    parseIntJS l = some ((digitsVal l : Nat) : Int) := by
  intro l hne hd
  obtain ⟨c, cs, rfl⟩ := List.exists_cons_of_ne_nil hne
  have hc := hd c (by simp)
  have hdrop : (c :: cs).dropWhile isJsWs = c :: cs := by
    rw [List.dropWhile_cons, not_ws_of_digit hc]
    simp
  have htake : (c :: cs).takeWhile isDigitC = c :: cs :=
    List.takeWhile_eq_self_iff.mpr (by intro x hx; exact hd x hx)
  unfold parseIntJS
  rw [hdrop, stripSign_digit cs hc]
  show (match c :: cs with
    | '0' :: x :: r =>
      if x = 'x' ∨ x = 'X' then
        if r.takeWhile isHexDigitC = [] then none
        else some ((1 : Int) * (hexVal (r.takeWhile isHexDigitC) : Int))
      else
        if (c :: cs).takeWhile isDigitC = [] then none
        else some ((1 : Int) * (digitsVal ((c :: cs).takeWhile isDigitC) : Int))
    | _ =>
      if (c :: cs).takeWhile isDigitC = [] then none
      else some ((1 : Int) * (digitsVal ((c :: cs).takeWhile isDigitC) : Int))) =
    some ((digitsVal (c :: cs) : Nat) : Int)
  split
  · rename_i x r heq
    have hx : isDigitC x = true := by
      apply hd
      rw [heq]
      simp
    have hxrange : 48 ≤ x.toNat ∧ x.toNat ≤ 57 := by
      unfold isDigitC at hx
      rwa [decide_eq_true_eq] at hx
    have hxX : ¬ (x = 'x' ∨ x = 'X') := by
      rintro (rfl | rfl) <;> simp at hxrange
    rw [if_neg hxX]
    rw [show ((c :: cs).takeWhile isDigitC) = c :: cs from htake]
    rw [if_neg (by simp)]
    simp
  · rw [show ((c :: cs).takeWhile isDigitC) = c :: cs from htake]
    rw [if_neg (by simp)]
    simp

theorem int_fdiv_natCast (a b : Nat) :
    Int.fdiv (a : Int) (b : Int) = ((a / b : Nat) : Int) := by
  rw [Int.fdiv_eq_ediv _ (Int.natCast_nonneg b)]
  exact (Int.natCast_div a b).symm

theorem int_tmod_natCast (a b : Nat) :
    Int.tmod (a : Int) (b : Int) = ((a % b : Nat) : Int) :=
  (Int.ofNat_tmod a b).symm

theorem intToChars_natCast (k : Nat) : intToChars (k : Int) = natToChars k := by
  unfold intToChars
  rw [if_neg (by omega), Int.toNat_natCast]

/-- `toStr` on a non-negative value, with all arithmetic in `Nat`. -/
theorem toStrL_ofNat (m : Nat) :
    toStrL (m : Int) =
      padL 2 '0' (natToChars (m / 3600000)) ++ ':' ::
      padL 2 '0' (natToChars (m % 3600000 / 60000)) ++ ':' ::
      padL 2 '0' (natToChars (m % 60000 / 1000)) ++ ',' ::
      padL 3 '0' (natToChars (m % 1000)) := by
  have hA : Int.fdiv (m : Int) 3600000 = ((m / 3600000 : Nat) : Int) := by
    simpa using int_fdiv_natCast m 3600000
  have hM : Int.tmod (m : Int) 3600000 = ((m % 3600000 : Nat) : Int) := by
    simpa using int_tmod_natCast m 3600000
  have hB : Int.fdiv ((m % 3600000 : Nat) : Int) 60000 =
      ((m % 3600000 / 60000 : Nat) : Int) := by
    simpa using int_fdiv_natCast (m % 3600000) 60000
  have hM2 : Int.tmod (m : Int) 60000 = ((m % 60000 : Nat) : Int) := by
    simpa using int_tmod_natCast m 60000
  have hC : Int.fdiv ((m % 60000 : Nat) : Int) 1000 =
      ((m % 60000 / 1000 : Nat) : Int) := by
    simpa using int_fdiv_natCast (m % 60000) 1000
  have hD : Int.tmod (m : Int) 1000 = ((m % 1000 : Nat) : Int) := by
    simpa using int_tmod_natCast m 1000
  unfold toStrL
  dsimp only
  rw [hA, hM, hB, hM2, hC, hD]
  simp only [intToChars_natCast]

/-- The `[:,\.]` separator test is false on digits. -/
theorem timeSep_false_of_digit {c : Char} (h : isDigitC c = true) :
    (decide (c = ':' ∨ c = ',' ∨ c = '.')) = false := by
  rw [decide_eq_false_iff_not]
  rintro (rfl | rfl | rfl) <;> exact absurd h (by decide)

/-- Splitting a four-component `HH:MM:SS,mmm` shape on `[:,\.]`. -/
theorem splitTime_four {A B C D : List Char} (hA : allDigits A) (hB : allDigits B)
    (hC : allDigits C) (hD : allDigits D) :
    splitCharSep (fun c => c = ':' ∨ c = ',' ∨ c = '.')
      (A ++ ':' :: B ++ ':' :: C ++ ',' :: D) = [A, B, C, D] := by
  have nosep : ∀ {l : List Char}, allDigits l →
      ∀ c ∈ l, (decide (c = ':' ∨ c = ',' ∨ c = '.')) = false :=
    fun h c hc => timeSep_false_of_digit (h c hc)
  rw [show A ++ ':' :: B ++ ':' :: C ++ ',' :: D =
    A ++ ':' :: (B ++ ':' :: (C ++ ',' :: D)) by simp [List.append_assoc]]
  rw [splitCharSep_append A _ (by decide)]
  rw [splitCharSep_append B _ (by decide)]
  rw [splitCharSep_append C _ (by decide)]
  rw [splitCharSep_nosep (nosep hA), splitCharSep_nosep (nosep hB),
    splitCharSep_nosep (nosep hC), splitCharSep_nosep (nosep hD)]
  rfl

/-- Parsing a serialized non-negative timestamp returns its value. -/
theorem toMsL_toStrL (m : Nat) : toMsL (toStrL (m : Int)) = (m : Int) := by
  rw [toStrL_ofNat]
  unfold toMsL
  rw [splitTime_four (padL_digits 2 natToChars_digits) (padL_digits 2 natToChars_digits)
    (padL_digits 2 natToChars_digits) (padL_digits 3 natToChars_digits)]
  rw [if_neg (by simp)]
  show parseIntOr0 _ * 3600000 + parseIntOr0 _ * 60000 + parseIntOr0 _ * 1000 +
    parseIntOr0 ([padL 2 '0' (natToChars (m / 3600000)),
      padL 2 '0' (natToChars (m % 3600000 / 60000)),
      padL 2 '0' (natToChars (m % 60000 / 1000)),
      padL 3 '0' (natToChars (m % 1000))].getD 3 []) = (m : Int)
  simp only [List.getD_cons_zero, List.getD_cons_succ]
  unfold parseIntOr0
  rw [parseIntJS_digits (padL_ne_nil 2 (natToChars_ne_nil _)) (padL_digits 2 natToChars_digits)]
  rw [parseIntJS_digits (padL_ne_nil 2 (natToChars_ne_nil _)) (padL_digits 2 natToChars_digits)]
  rw [parseIntJS_digits (padL_ne_nil 2 (natToChars_ne_nil _)) (padL_digits 2 natToChars_digits)]
  rw [parseIntJS_digits (padL_ne_nil 3 (natToChars_ne_nil _)) (padL_digits 3 natToChars_digits)]
  simp only [Option.getD_some]
  rw [digitsVal_padL, digitsVal_padL, digitsVal_padL, digitsVal_padL]
  rw [natToChars_val, natToChars_val, natToChars_val, natToChars_val]
  push_cast
  omega

/-- Every character of a serialized non-negative timestamp is a digit, a
colon or a comma. -/
theorem toStrL_chars (m : Nat) :
    ∀ c ∈ toStrL (m : Int), isDigitC c = true ∨ c = ':' ∨ c = ',' := by
  rw [toStrL_ofNat]
  rw [show padL 2 '0' (natToChars (m / 3600000)) ++ ':' ::
      padL 2 '0' (natToChars (m % 3600000 / 60000)) ++ ':' ::
      padL 2 '0' (natToChars (m % 60000 / 1000)) ++ ',' ::
      padL 3 '0' (natToChars (m % 1000)) =
    padL 2 '0' (natToChars (m / 3600000)) ++ ':' ::
      (padL 2 '0' (natToChars (m % 3600000 / 60000)) ++ ':' ::
        (padL 2 '0' (natToChars (m % 60000 / 1000)) ++ ',' ::
          padL 3 '0' (natToChars (m % 1000)))) by simp [List.append_assoc]]
  intro c hc
  rcases List.mem_append.mp hc with h | h
  · exact Or.inl (padL_digits 2 natToChars_digits c h)
  · rcases List.mem_cons.mp h with rfl | h
    · exact Or.inr (Or.inl rfl)
    · rcases List.mem_append.mp h with h | h
      · exact Or.inl (padL_digits 2 natToChars_digits c h)
      · rcases List.mem_cons.mp h with rfl | h
        · exact Or.inr (Or.inl rfl)
        · rcases List.mem_append.mp h with h | h
          · exact Or.inl (padL_digits 2 natToChars_digits c h)
          · rcases List.mem_cons.mp h with rfl | h
            · exact Or.inr (Or.inr rfl)
            · exact Or.inl (padL_digits 3 natToChars_digits c h)

theorem toStrL_not_ws {m : Nat} : ∀ c ∈ toStrL (m : Int), isJsWs c = false := by
  intro c hc
  rcases toStrL_chars m c hc with h | rfl | rfl
  · exact not_ws_of_digit h
  · decide
  · decide

theorem toStrL_no_nl {m : Nat} : ∀ c ∈ toStrL (m : Int), c ≠ '\n' := by
  intro c hc h
  subst h
  exact absurd (toStrL_not_ws _ hc) (by decide)

theorem toStrL_no_space {m : Nat} : ∀ c ∈ toStrL (m : Int), c ≠ ' ' := by
  intro c hc h
  subst h
  exact absurd (toStrL_not_ws _ hc) (by decide)

theorem toStrL_ne_nil (m : Nat) : toStrL (m : Int) ≠ [] := by
  rw [toStrL_ofNat]
  simp

theorem toMsL_toStrL_int {i : Int} (h : 0 ≤ i) : toMsL (toStrL i) = i := by
  have h2 : i = ((i.toNat : Nat) : Int) := by omega
  rw [h2, toMsL_toStrL]

/-! ### Every line of every block-split piece has content -/

theorem content_iff_not_allWs {l : List Char} :
    lineHasContent l ↔ allWsL l = false := by
  unfold lineHasContent allWsL
  rw [List.all_eq_false]
  constructor
  · rintro ⟨c, hc, hws⟩; exact ⟨c, hc, by simp [hws]⟩
  · rintro ⟨c, hc, hws⟩; exact ⟨c, hc, by simpa using hws⟩

theorem dropWhile_head_false {α : Type _} {p : α → Bool} {l : List α}
    {r : α} {rs : List α} (h : l.dropWhile p = r :: rs) :
    p r = false := by
  have := List.head?_dropWhile_not p l
  rw [h] at this
  exact this

theorem dropWhile_getLast? {α : Type _} {p : α → Bool} {l : List α}
    (h : l.dropWhile p ≠ []) : (l.dropWhile p).getLast? = l.getLast? := by
  conv_rhs => rw [← List.takeWhile_append_dropWhile p l]
  rw [List.getLast?_append]
  obtain ⟨x, hx⟩ : ∃ x, (l.dropWhile p).getLast? = some x :=
    ⟨(l.dropWhile p).getLast h, List.getLast?_eq_getLast _ h⟩
  rw [hx, Option.or_some]

/-- Every line of every piece produced by the blank-line scanner has
non-whitespace content, provided the accumulated lines do, the head line
does, and the final line does.  (Whitespace-only interior lines are
always consumed by a separator match.) -/
theorem sbGo_content : ∀ (fuel : Nat) (acc ls : List (List Char)),
    (∀ l ∈ acc, lineHasContent l) →
    (∀ l₀, ls.head? = some l₀ → lineHasContent l₀) →
    (∀ l₀, ls.getLast? = some l₀ → lineHasContent l₀) →
    ∀ g ∈ sbGo fuel acc ls, ∀ l ∈ g, lineHasContent l := by
  intro fuel
  induction fuel with
  | zero =>
    intro acc ls hacc _ _ g hg l hl
    rw [show sbGo 0 acc ls = [acc.reverse] from rfl] at hg
    simp at hg
    subst hg
    exact hacc l (by simpa using hl)
  | succ f ih =>
    intro acc ls hacc hhead hlast g hg l hl
    match ls with
    | [] =>
      rw [show sbGo (f + 1) acc [] = [acc.reverse] from rfl] at hg
      simp at hg
      subst hg
      exact hacc l (by simpa using hl)
    | [l₁] =>
      rw [show sbGo (f + 1) acc [l₁] = [(l₁ :: acc).reverse] from rfl] at hg
      simp at hg
      subst hg
      simp at hl
      rcases hl with hl | hl
      · exact hacc l hl
      · subst hl; exact hhead l rfl
    | l₁ :: l₂ :: rest =>
      have hl₁ : lineHasContent l₁ := hhead l₁ rfl
      by_cases hcond : allWsL l₂ = true ∧ rest ≠ []
      · rcases hdw : (l₂ :: rest).dropWhile allWsL with _ | ⟨r, rs⟩
        · simp only [sbGo, hdw] at hg
          rw [if_pos hcond] at hg
          simp at hg
          rcases hg with hg | hg
          · subst hg
            simp at hl
            rcases hl with hl | hl
            · exact hacc l hl
            · subst hl; exact hl₁
          · subst hg
            simp at hl
            subst hl
            apply hlast
            rw [List.getLast?_cons_cons]
            exact List.getLast?_eq_getLast _ (by simp)
        · simp only [sbGo, hdw] at hg
          rw [if_pos hcond] at hg
          rcases List.mem_cons.mp hg with hg | hg
          · subst hg
            simp at hl
            rcases hl with hl | hl
            · exact hacc l hl
            · subst hl; exact hl₁
          · refine ih [] (r :: rs) (by simp) ?_ ?_ g hg l hl
            · intro l₀ h0
              simp at h0
              subst h0
              rw [content_iff_not_allWs]
              exact dropWhile_head_false hdw
            · intro l₀ h0
              apply hlast
              rw [List.getLast?_cons_cons]
              rw [← dropWhile_getLast? (p := allWsL) (l := l₂ :: rest) (by rw [hdw]; simp)]
              rw [hdw]
              exact h0
      · simp only [sbGo] at hg
        rw [if_neg hcond] at hg
        refine ih (l₁ :: acc) (l₂ :: rest) ?_ ?_ ?_ g hg l hl
        · intro x hx
          rcases List.mem_cons.mp hx with rfl | hx
          · exact hl₁
          · exact hacc x hx
        · intro l₀ h0
          simp at h0
          subst h0
          rcases Decidable.not_and_iff_or_not.mp hcond with h | h
          · rw [content_iff_not_allWs]
            simpa using h
          · rw [Decidable.not_not] at h
            subst h
            apply hlast
            simp
        · intro l₀ h0
          apply hlast
          rw [List.getLast?_cons_cons]
          exact h0

/-! ### Trimmed strings start and end with non-whitespace -/

theorem rdw_head? {X : List Char} (h : rdw X ≠ []) : (rdw X).head? = X.head? := by
  unfold rdw at *
  rw [List.head?_reverse]
  rw [dropWhile_getLast? (by
    intro h0
    rw [h0] at h
    simp at h)]
  rw [List.getLast?_reverse]

theorem rdw_getLast_false {X : List Char} {c : Char}
    (h : (rdw X).getLast? = some c) : isJsWs c = false := by
  unfold rdw at h
  rw [List.getLast?_reverse] at h
  rcases hdw : X.reverse.dropWhile isJsWs with _ | ⟨r, rs⟩
  · rw [hdw] at h; simp at h
  · rw [hdw] at h
    simp at h
    subst h
    exact dropWhile_head_false hdw

theorem trimL_head_false {s : List Char} {c : Char}
    (h : (trimL s).head? = some c) : isJsWs c = false := by
  unfold trimL at h
  have hne : rdw (ldw s) ≠ [] := by
    intro h0; rw [h0] at h; simp at h
  rw [rdw_head? hne] at h
  unfold ldw at h
  rcases hdw : s.dropWhile isJsWs with _ | ⟨r, rs⟩
  · rw [hdw] at h; simp at h
  · rw [hdw] at h
    simp at h
    subst h
    exact dropWhile_head_false hdw

theorem trimL_getLast_false {s : List Char} {c : Char}
    (h : (trimL s).getLast? = some c) : isJsWs c = false :=
  rdw_getLast_false h

/-! ### First and last lines of a split -/

theorem splitNl_head_content {c : Char} (cs : List Char) (hc : isJsWs c = false) :
    ∀ l₀, (splitNl (c :: cs)).head? = some l₀ → lineHasContent l₀ := by
  intro l₀ h0
  have hcnl : (decide (c = '\n')) = false := by
    rw [decide_eq_false_iff_not]
    intro h
    subst h
    exact absurd hc (by decide)
  unfold splitNl at h0
  rw [splitCharSep] at h0
  rw [if_neg (by simp [hcnl] : ¬ ((fun x => decide (x = '\n')) c = true))] at h0
  rcases hs : splitCharSep (fun x => decide (x = '\n')) cs with _ | ⟨t, ts⟩
  · exact absurd hs (splitCharSep_ne_nil _ cs)
  · rw [hs] at h0
    simp at h0
    subst h0
    exact ⟨c, by simp, hc⟩

theorem splitCharSep_getLast_mem {p : Char → Bool} :
    ∀ (l : List Char) (x : Char), l.getLast? = some x → p x = false →
      ∀ line, (splitCharSep p l).getLast? = some line → x ∈ line := by
  intro l
  induction l with
  | nil => intro x hx; simp at hx
  | cons c cs ih =>
    intro x hx hpx line hline
    cases cs with
    | nil =>
      have hcx : c = x := by simpa using hx
      rw [show splitCharSep p [c] = if p c = true then [[], []] else [[c]] from by
        rw [splitCharSep]
        split
        · rfl
        · rfl] at hline
      rw [if_neg (by rw [hcx]; simp [hpx])] at hline
      simp at hline
      subst hline
      simp [hcx]
    | cons c₂ cs' =>
      rw [List.getLast?_cons_cons] at hx
      rw [splitCharSep] at hline
      by_cases hpc : p c = true
      · rw [if_pos hpc] at hline
        rcases hs : splitCharSep p (c₂ :: cs') with _ | ⟨t, ts⟩
        · exact absurd hs (splitCharSep_ne_nil _ _)
        · rw [hs] at hline
          rw [List.getLast?_cons_cons] at hline
          rw [← hs] at hline
          exact ih x hx hpx line hline
      · rw [if_neg hpc] at hline
        rcases hs : splitCharSep p (c₂ :: cs') with _ | ⟨t, ts⟩
        · exact absurd hs (splitCharSep_ne_nil _ _)
        · rw [hs] at hline
          cases ts with
          | nil =>
            simp at hline
            subst hline
            have := ih x hx hpx t (by rw [hs]; rfl)
            simp [this]
          | cons u us =>
            rw [List.getLast?_cons_cons] at hline
            have := ih x hx hpx line (by rw [hs, List.getLast?_cons_cons]; exact hline)
            exact this

theorem splitNl_last_content {t : List Char} {x : Char}
    (hx : t.getLast? = some x) (hnw : isJsWs x = false) :
    ∀ l₀, (splitNl t).getLast? = some l₀ → lineHasContent l₀ := by
  intro l₀ h0
  have hxnl : (fun c => decide (c = '\n')) x = false := by
    simp only [decide_eq_false_iff_not]
    intro h
    subst h
    exact absurd hnw (by decide)
  exact ⟨x, splitCharSep_getLast_mem t x hx hxnl l₀ h0, hnw⟩

/-! ### Provenance and non-emptiness of scanner groups -/

theorem sbGo_mem : ∀ (fuel : Nat) (acc ls : List (List Char)),
    ∀ g ∈ sbGo fuel acc ls, ∀ l ∈ g, l ∈ acc ∨ l ∈ ls := by
  intro fuel
  induction fuel with
  | zero =>
    intro acc ls g hg l hl
    rw [show sbGo 0 acc ls = [acc.reverse] from rfl] at hg
    simp at hg
    subst hg
    exact Or.inl (by simpa using hl)
  | succ f ih =>
    intro acc ls g hg l hl
    match ls with
    | [] =>
      rw [show sbGo (f + 1) acc [] = [acc.reverse] from rfl] at hg
      simp at hg
      subst hg
      exact Or.inl (by simpa using hl)
    | [l₁] =>
      rw [show sbGo (f + 1) acc [l₁] = [(l₁ :: acc).reverse] from rfl] at hg
      simp at hg
      subst hg
      simp at hl
      rcases hl with hl | hl
      · exact Or.inl hl
      · subst hl; exact Or.inr (by simp)
    | l₁ :: l₂ :: rest =>
      by_cases hcond : allWsL l₂ = true ∧ rest ≠ []
      · rcases hdw : (l₂ :: rest).dropWhile allWsL with _ | ⟨r, rs⟩
        · simp only [sbGo, hdw] at hg
          rw [if_pos hcond] at hg
          simp at hg
          rcases hg with hg | hg
          · subst hg
            simp at hl
            rcases hl with hl | hl
            · exact Or.inl hl
            · subst hl; exact Or.inr (by simp)
          · subst hg
            simp at hl
            subst hl
            refine Or.inr (List.mem_cons.mpr (Or.inr ?_))
            exact List.getLast_mem _
        · simp only [sbGo, hdw] at hg
          rw [if_pos hcond] at hg
          rcases List.mem_cons.mp hg with hg | hg
          · subst hg
            simp at hl
            rcases hl with hl | hl
            · exact Or.inl hl
            · subst hl; exact Or.inr (by simp)
          · rcases ih [] (r :: rs) g hg l hl with h | h
            · simp at h
            · refine Or.inr (List.mem_cons.mpr (Or.inr ?_))
              have hsub := (List.dropWhile_sublist (l := l₂ :: rest) allWsL).subset
              rw [hdw] at hsub
              exact hsub h
      · simp only [sbGo] at hg
        rw [if_neg hcond] at hg
        rcases ih (l₁ :: acc) (l₂ :: rest) g hg l hl with h | h
        · rcases List.mem_cons.mp h with rfl | h
          · exact Or.inr (by simp)
          · exact Or.inl h
        · exact Or.inr (List.mem_cons.mpr (Or.inr h))

theorem sbGo_ne_nil : ∀ (fuel : Nat) (acc ls : List (List Char)),
    ls.length ≤ fuel → (acc ≠ [] ∨ ls ≠ []) →
    ∀ g ∈ sbGo fuel acc ls, g ≠ [] := by
  intro fuel
  induction fuel with
  | zero =>
    intro acc ls hf hne g hg
    have : ls = [] := List.eq_nil_of_length_eq_zero (Nat.le_zero.mp hf)
    subst this
    rw [show sbGo 0 acc [] = [acc.reverse] from rfl] at hg
    simp at hg
    subst hg
    rcases hne with h | h
    · simpa using h
    · exact absurd rfl h
  | succ f ih =>
    intro acc ls hf hne g hg
    match ls with
    | [] =>
      rw [show sbGo (f + 1) acc [] = [acc.reverse] from rfl] at hg
      simp at hg
      subst hg
      rcases hne with h | h
      · simpa using h
      · exact absurd rfl h
    | [l₁] =>
      rw [show sbGo (f + 1) acc [l₁] = [(l₁ :: acc).reverse] from rfl] at hg
      simp at hg
      subst hg
      simp
    | l₁ :: l₂ :: rest =>
      simp only [List.length_cons] at hf
      by_cases hcond : allWsL l₂ = true ∧ rest ≠ []
      · rcases hdw : (l₂ :: rest).dropWhile allWsL with _ | ⟨r, rs⟩
        · simp only [sbGo, hdw] at hg
          rw [if_pos hcond] at hg
          simp at hg
          rcases hg with hg | hg <;> (subst hg; simp)
        · simp only [sbGo, hdw] at hg
          rw [if_pos hcond] at hg
          rcases List.mem_cons.mp hg with hg | hg
          · subst hg; simp
          · have hlen : (r :: rs).length ≤ rest.length + 1 := by
              have h2 := (List.dropWhile_sublist (l := l₂ :: rest) allWsL).length_le
              rw [hdw] at h2
              simpa using h2
            exact ih [] (r :: rs) (by omega) (Or.inr (by simp)) g hg
      · simp only [sbGo] at hg
        rw [if_neg hcond] at hg
        exact ih (l₁ :: acc) (l₂ :: rest) (by simp; omega) (Or.inl (by simp)) g hg

/-- Every piece produced by `splitBlankL` on a trimmed, non-empty string
splits into lines that all contain non-whitespace content. -/
theorem splitBlankL_good {t : List Char} (htne : t ≠ [])
    (hh : ∀ c, t.head? = some c → isJsWs c = false)
    (hl : ∀ c, t.getLast? = some c → isJsWs c = false) :
    ∀ p ∈ splitBlankL t, ∀ l ∈ splitNl p, lineHasContent l := by
  intro p hp l hlp
  unfold splitBlankL at hp
  rw [List.mem_map] at hp
  obtain ⟨g, hg, rfl⟩ := hp
  obtain ⟨c, cs, rfl⟩ := List.exists_cons_of_ne_nil htne
  have hls_ne : splitNl (c :: cs) ≠ [] := splitCharSep_ne_nil _ _
  have hg_ne : g ≠ [] :=
    sbGo_ne_nil _ [] (splitNl (c :: cs)) (by omega) (Or.inr hls_ne) g hg
  have hg_mem : ∀ l' ∈ g, l' ∈ splitNl (c :: cs) := by
    intro l' hl'
    rcases sbGo_mem _ [] (splitNl (c :: cs)) g hg l' hl' with h | h
    · simp at h
    · exact h
  have hg_nlfree : ∀ l' ∈ g, ∀ x ∈ l', x ≠ '\n' := by
    intro l' hl' x hx h
    subst h
    have := splitCharSep_no_sep l' (hg_mem l' hl') '\n' hx
    simp at this
  have hsplit : splitNl (icl ['\n'] g) = g := by
    unfold splitNl
    exact splitCharSep_icl hg_ne (fun l' hl' x hx => hg_nlfree l' hl' x hx)
  rw [hsplit] at hlp
  have hcnw : isJsWs c = false := hh c rfl
  have hcontent := sbGo_content ((splitNl (c :: cs)).length + 1) [] (splitNl (c :: cs))
    (by simp)
    (splitNl_head_content cs hcnw)
    (by
      rcases List.eq_nil_or_concat (c :: cs) with h | ⟨L, x, hLx⟩
      · simp at h
      · have hxlast : (c :: cs).getLast? = some x := by
          rw [hLx, List.concat_eq_append, List.getLast?_append]
          simp
        refine splitNl_last_content hxlast (hl x hxlast))
  exact hcontent g hg l hlp

/-! ### `" --> "` splitting on space-free halves -/

theorem splitStrGo_clean (sep' : List Char) :
    ∀ (B : List Char) (fuel : Nat) (acc : List Char), B.length ≤ fuel →
      (∀ x ∈ B, x ≠ ' ') →
      splitStrGo (' ' :: sep') fuel acc B = [acc.reverse ++ B] := by
  intro B
  induction B with
  | nil =>
    intro fuel acc _ _
    cases fuel with
    | zero => simp [splitStrGo]
    | succ f => simp [splitStrGo]
  | cons c cs ih =>
    intro fuel acc hf hsp
    cases fuel with
    | zero => simp at hf
    | succ f =>
      rw [splitStrGo]
      rw [if_neg (by
        intro h
        rw [List.length_cons, List.take_succ_cons] at h
        injection h with h1 _
        exact hsp c (by simp) h1)]
      rw [ih f (c :: acc) (by simpa using hf) (fun x hx => hsp x (by simp [hx]))]
      simp

theorem splitStrGo_boundary (sep' : List Char) :
    ∀ (A : List Char) (fuel : Nat) (acc : List Char) (B : List Char),
      A.length < fuel → (∀ x ∈ A, x ≠ ' ') →
      splitStrGo (' ' :: sep') fuel acc (A ++ ((' ' :: sep') ++ B)) =
        (acc.reverse ++ A) :: splitStrGo (' ' :: sep') (fuel - A.length - 1) [] B := by
  intro A
  induction A with
  | nil =>
    intro fuel acc B hf _
    cases fuel with
    | zero => omega
    | succ f =>
      show splitStrGo (' ' :: sep') (f + 1) acc (' ' :: (sep' ++ B)) = _
      rw [splitStrGo]
      rw [if_pos (by
        rw [List.length_cons, List.take_succ_cons]
        congr 1
        exact List.take_left sep' B)]
      rw [show (' ' :: (sep' ++ B)).drop (' ' :: sep').length = B by
        rw [List.length_cons, List.drop_succ_cons]
        exact List.drop_left sep' B]
      simp
  | cons c A' ih =>
    intro fuel acc B hf hsp
    cases fuel with
    | zero => omega
    | succ f =>
      show splitStrGo (' ' :: sep') (f + 1) acc (c :: (A' ++ ((' ' :: sep') ++ B))) = _
      rw [splitStrGo]
      rw [if_neg (by
        intro h
        rw [List.length_cons, List.take_succ_cons] at h
        injection h with h1 _
        exact hsp c (by simp) h1)]
      rw [ih f (c :: acc) B (by simp at hf ⊢; omega)
        (fun x hx => hsp x (by simp [hx]))]
      have hfu : f - A'.length - 1 = f + 1 - (c :: A').length - 1 := by
        simp only [List.length_cons]
        omega
      rw [hfu]
      simp

/-- Splitting `A --> B` on `" --> "` when neither half contains a space. -/
theorem splitArrow_pair (A B : List Char) (hA : ∀ x ∈ A, x ≠ ' ')
    (hB : ∀ x ∈ B, x ≠ ' ') :
    splitArrow (A ++ (" --> ".data ++ B)) = [A, B] := by
  have hsep : " --> ".data = ' ' :: ['-', '-', '>', ' '] := rfl
  unfold splitArrow
  rw [hsep]
  rw [splitStrGo_boundary ['-', '-', '>', ' '] A _ [] B (by simp; omega) hA]
  rw [splitStrGo_clean ['-', '-', '>', ' '] B _ [] (by simp; omega) hB]
  simp

/-! ### Parsing a serialized block -/

/-- The time line of a serialized block. -/
def timeLineOf (b : Block) : List Char :=
  toStrL b.startMs ++ (" --> ".data ++ toStrL b.endMs)

/-- The serialized block without its trailing blank-line separator. -/
def pieceOf (b : Block) : List Char :=
  b.index ++ ('\n' :: (timeLineOf b ++ ('\n' :: b.text)))

theorem serializeBlockL_eq (b : Block) :
    serializeBlockL b = pieceOf b ++ ['\n', '\n'] := by
  unfold serializeBlockL pieceOf timeLineOf
  simp [List.append_assoc]

theorem splitNl_append_line {a : List Char} (b : List Char)
    (ha : ∀ x ∈ a, x ≠ '\n') : splitNl (a ++ '\n' :: b) = a :: splitNl b := by
  unfold splitNl
  rw [splitCharSep_append a b (by simp)]
  rw [splitCharSep_nosep (by
    intro c hc
    simp only [decide_eq_false_iff_not]
    exact ha c hc)]
  rfl

theorem trimL_of_all_not_ws {l : List Char} (h : ∀ c ∈ l, isJsWs c = false) :
    trimL l = l := by
  cases l with
  | nil => rfl
  | cons c cs =>
    exact trimL_eq_self (by simp)
      (fun x hx => h x (List.mem_of_mem_head? hx))
      (fun x hx => h x (List.mem_of_mem_getLast? hx))

theorem timeLineOf_no_nl {b : Block} (hs : 0 ≤ b.startMs) (he : 0 ≤ b.endMs) :
    ∀ x ∈ timeLineOf b, x ≠ '\n' := by
  intro x hx
  unfold timeLineOf at hx
  have hs' : b.startMs = ((b.startMs.toNat : Nat) : Int) := by omega
  have he' : b.endMs = ((b.endMs.toNat : Nat) : Int) := by omega
  rcases List.mem_append.mp hx with h | h
  · rw [hs'] at h
    exact toStrL_no_nl x h
  · rcases List.mem_append.mp h with h | h
    · intro hh; subst hh; revert h; decide
    · rw [he'] at h
      exact toStrL_no_nl x h

theorem timeLineOf_no_space {b : Block} (hs : 0 ≤ b.startMs) (he : 0 ≤ b.endMs) :
    splitArrow (timeLineOf b) = [toStrL b.startMs, toStrL b.endMs] := by
  unfold timeLineOf
  have hs' : b.startMs = ((b.startMs.toNat : Nat) : Int) := by omega
  have he' : b.endMs = ((b.endMs.toNat : Nat) : Int) := by omega
  apply splitArrow_pair
  · rw [hs']; exact fun x hx => toStrL_no_space x hx
  · rw [he']; exact fun x hx => toStrL_no_space x hx

theorem parsePieceL_cons (piece i t : List Char) (rest : List (List Char))
    (h : splitNl piece = i :: t :: rest) (hrest : rest ≠ []) :
    parsePieceL piece =
      if (splitArrow t).getD 0 [] = [] ∨ (splitArrow t).getD 1 [] = [] then none
      else some ⟨i, toMsL (trimL ((splitArrow t).getD 0 [])),
        toMsL (trimL ((splitArrow t).getD 1 [])), icl ['\n'] rest⟩ := by
  have hlen : ¬ ((i :: t :: rest).length < 3) := by
    cases rest with
    | nil => exact absurd rfl hrest
    | cons a as => simp
  unfold parsePieceL
  rw [h]
  show (if (i :: t :: rest).length < 3 then none
    else
      if (splitArrow ((i :: t :: rest).getD 1 [])).getD 0 [] = [] ∨
          (splitArrow ((i :: t :: rest).getD 1 [])).getD 1 [] = [] then none
      else some (Block.mk ((i :: t :: rest).getD 0 [])
        (toMsL (trimL ((splitArrow ((i :: t :: rest).getD 1 [])).getD 0 [])))
        (toMsL (trimL ((splitArrow ((i :: t :: rest).getD 1 [])).getD 1 [])))
        (icl ['\n'] ((i :: t :: rest).drop 2)))) = _
  rw [if_neg hlen]
  simp only [List.getD_cons_zero, List.getD_cons_succ, List.drop_succ_cons,
    List.drop_zero]

/-- Parsing a serialized block recovers the block exactly (for blocks with
newline-free index and non-negative times). -/
theorem parsePieceL_pieceOf (b : Block) (hidx : ∀ x ∈ b.index, x ≠ '\n')
    (hs : 0 ≤ b.startMs) (he : 0 ≤ b.endMs) :
    parsePieceL (pieceOf b) = some b := by
  have hsplit : splitNl (pieceOf b) = b.index :: timeLineOf b :: splitNl b.text := by
    unfold pieceOf
    rw [splitNl_append_line _ hidx]
    rw [splitNl_append_line _ (timeLineOf_no_nl hs he)]
  have hrest : splitNl b.text ≠ [] := splitCharSep_ne_nil _ b.text
  rw [parsePieceL_cons _ _ _ _ hsplit hrest]
  rw [timeLineOf_no_space hs he]
  simp only [List.getD_cons_zero, List.getD_cons_succ]
  have hs' : b.startMs = ((b.startMs.toNat : Nat) : Int) := by omega
  have he' : b.endMs = ((b.endMs.toNat : Nat) : Int) := by omega
  rw [if_neg (by
    push_neg
    constructor
    · rw [hs']; exact toStrL_ne_nil _
    · rw [he']; exact toStrL_ne_nil _)]
  have htrim_s : trimL (toStrL b.startMs) = toStrL b.startMs := by
    rw [hs']
    exact trimL_of_all_not_ws toStrL_not_ws
  have htrim_e : trimL (toStrL b.endMs) = toStrL b.endMs := by
    rw [he']
    exact trimL_of_all_not_ws toStrL_not_ws
  rw [htrim_s, htrim_e, toMsL_toStrL_int hs, toMsL_toStrL_int he]
  rw [show icl ['\n'] (splitNl b.text) = b.text from icl_splitCharSep '\n' b.text]

/-! ### Trim decompositions and idempotence -/

theorem ldw_decomp (l : List Char) :
    l = l.takeWhile isJsWs ++ ldw l ∧ ∀ c ∈ l.takeWhile isJsWs, isJsWs c = true := by
  constructor
  · exact (List.takeWhile_append_dropWhile isJsWs l).symm
  · exact fun c hc => List.mem_takeWhile_imp hc

theorem rdw_decomp (l : List Char) :
    ∃ w, l = rdw l ++ w ∧ ∀ c ∈ w, isJsWs c = true := by
  refine ⟨(l.reverse.takeWhile isJsWs).reverse, ?_, ?_⟩
  · unfold rdw
    rw [← List.reverse_append, List.takeWhile_append_dropWhile, List.reverse_reverse]
  · intro c hc
    rw [List.mem_reverse] at hc
    exact List.mem_takeWhile_imp hc

theorem mem_of_mem_ldw {l : List Char} {x : Char} (h : x ∈ ldw l) : x ∈ l :=
  (List.dropWhile_sublist isJsWs).subset h

theorem mem_of_mem_rdw {l : List Char} {x : Char} (h : x ∈ rdw l) : x ∈ l := by
  unfold rdw at h
  rw [List.mem_reverse] at h
  exact List.mem_reverse.mp ((List.dropWhile_sublist isJsWs).subset h)

theorem ldw_content {l : List Char} (h : lineHasContent l) :
    lineHasContent (ldw l) := by
  obtain ⟨c, hc, hcw⟩ := h
  obtain ⟨hdec, hws⟩ := ldw_decomp l
  rw [hdec] at hc
  rcases List.mem_append.mp hc with h1 | h1
  · exact absurd (hws c h1) (by rw [hcw]; simp)
  · exact ⟨c, h1, hcw⟩

theorem rdw_content {l : List Char} (h : lineHasContent l) :
    lineHasContent (rdw l) := by
  obtain ⟨c, hc, hcw⟩ := h
  obtain ⟨w, hdec, hws⟩ := rdw_decomp l
  rw [hdec] at hc
  rcases List.mem_append.mp hc with h1 | h1
  · exact ⟨c, h1, hcw⟩
  · exact absurd (hws c h1) (by rw [hcw]; simp)

theorem trimL_ne_nil_of_content {l : List Char} (h : lineHasContent l) :
    trimL l ≠ [] := by
  intro h0
  have h1 : lineHasContent (trimL l) := rdw_content (ldw_content h)
  obtain ⟨c, hc, _⟩ := h1
  rw [h0] at hc
  exact absurd hc (List.not_mem_nil c)

theorem trimL_idem (l : List Char) : trimL (trimL l) = trimL l := by
  cases h : trimL l with
  | nil => rfl
  | cons c cs =>
    rw [← h]
    exact trimL_eq_self (by rw [h]; simp)
      (fun x hx => trimL_head_false hx)
      (fun x hx => trimL_getLast_false hx)

theorem trimL_ws_suffix (l : List Char) {w : List Char}
    (hw : ∀ c ∈ w, isJsWs c = true) (hl : lineHasContent l) :
    trimL (l ++ w) = trimL l := by
  unfold trimL
  rw [ldw_append _ hl, rdw_ws_suffix _ hw]

/-! ### Inverting `parsePieceL` and the goodness of parsed blocks -/

theorem parsePieceL_some {piece : List Char} {b : Block}
    (h : parsePieceL piece = some b) :
    3 ≤ (splitNl piece).length ∧
      b.index = (splitNl piece).getD 0 [] ∧
      b.text = icl ['\n'] ((splitNl piece).drop 2) := by
  unfold parsePieceL at h
  dsimp only at h
  by_cases h3 : (splitNl piece).length < 3
  · rw [if_pos h3] at h
    exact absurd h (by simp)
  · rw [if_neg h3] at h
    by_cases h4 : (splitArrow ((splitNl piece).getD 1 [])).getD 0 [] = [] ∨
        (splitArrow ((splitNl piece).getD 1 [])).getD 1 [] = []
    · rw [if_pos h4] at h
      exact absurd h (by simp)
    · rw [if_neg h4] at h
      have hb := Option.some.inj h
      exact ⟨by omega, by rw [← hb], by rw [← hb]⟩

theorem parsedBlocksL_mem {s : List Char} {b : Block} (h : b ∈ parsedBlocksL s) :
    ∃ p ∈ splitBlankL (trimL s), parsePieceL p = some b := by
  unfold parsedBlocksL at h
  rw [List.reduceOption_mem_iff, List.mem_map] at h
  obtain ⟨p, hp, hps⟩ := h
  exact ⟨p, hp, hps⟩

theorem getD_mem_of_lt {α : Type _} [Inhabited α] {l : List α} {n : Nat}
    (h : n < l.length) : l.getD n default ∈ l := by
  rw [List.getD_eq_getElem _ _ h]
  exact List.getElem_mem h

/-- Every block parsed out of any input has a content-bearing, newline-free
index line and content on every line of its text. -/
theorem parsedBlocksL_good {s : List Char} {b : Block} (h : b ∈ parsedBlocksL s) :
    lineHasContent b.index ∧ (∀ x ∈ b.index, x ≠ '\n') ∧
      (∀ l ∈ splitNl b.text, lineHasContent l) := by
  obtain ⟨p, hp, hps⟩ := parsedBlocksL_mem h
  obtain ⟨hlen, hidx, htext⟩ := parsePieceL_some hps
  have htne : trimL s ≠ [] := by
    intro h0
    rw [h0] at hp
    have : p ∈ splitBlankL [] := hp
    have hpe : p = [] := by
      have : splitBlankL ([] : List Char) = [[]] := rfl
      rw [this] at hp
      simpa using hp
    rw [hpe] at hlen
    simp [splitNl, splitCharSep] at hlen
  have hgood : ∀ l ∈ splitNl p, lineHasContent l := by
    cases hc : trimL s with
    | nil => exact absurd hc htne
    | cons c cs =>
      refine splitBlankL_good (by simp)
        (fun x hx => trimL_head_false (hc ▸ hx))
        (fun x hx => trimL_getLast_false (hc ▸ hx)) p (hc ▸ hp)
  have hlines_free : ∀ l ∈ splitNl p, ∀ x ∈ l, x ≠ '\n' := by
    intro l hl x hx
    have := splitCharSep_no_sep l hl x hx
    simpa using this
  have hidx_mem : (splitNl p).getD 0 [] ∈ splitNl p :=
    getD_mem_of_lt (by omega)
  refine ⟨?_, ?_, ?_⟩
  · rw [hidx]
    exact hgood _ hidx_mem
  · rw [hidx]
    exact hlines_free _ hidx_mem
  · intro l hl
    rw [htext] at hl
    have hdrop_ne : (splitNl p).drop 2 ≠ [] := by
      intro h0
      have := congrArg List.length h0
      simp at this
      omega
    have hdrop_free : ∀ t ∈ (splitNl p).drop 2, ∀ x ∈ t, x ≠ '\n' :=
      fun t ht => hlines_free t (List.drop_subset _ _ ht)
    rw [show splitNl (icl ['\n'] ((splitNl p).drop 2)) =
        splitCharSep (fun x => decide (x = '\n')) (icl ['\n'] ((splitNl p).drop 2))
      from rfl, splitCharSep_icl hdrop_ne hdrop_free] at hl
    exact hgood l (List.drop_subset _ _ hl)

/-! ### Membership and stability facts about the refinement pass -/

theorem refineGo_mem (bs : List Block) :
    ∀ (l : List Block) (i : Nat) (b' : Block), b' ∈ refineGo bs i l →
      ∃ j b, b ∈ l ∧ b' = refineBlock bs j b := by
  intro l
  induction l with
  | nil => intro i b' h; simp [refineGo] at h
  | cons a as ih =>
    intro i b' h
    rw [refineGo] at h
    rcases List.mem_cons.mp h with h | h
    · exact ⟨i, a, List.mem_cons_self a as, h⟩
    · obtain ⟨j, b, hb, hb'⟩ := ih (i + 1) b' h
      exact ⟨j, b, List.mem_cons_of_mem a hb, hb'⟩

theorem refineEndsL_mem {bs : List Block} {b' : Block} (h : b' ∈ refineEndsL bs) :
    ∃ j b, b ∈ bs ∧ b' = refineBlock bs j b :=
  refineGo_mem bs bs 0 b' h

theorem refineBlock_endMs_nonneg {bs : List Block} {i : Nat} {b : Block}
    (hall : ∀ x ∈ bs, 0 ≤ x.startMs) (hb : 0 ≤ b.startMs) :
    0 ≤ (refineBlock bs i b).endMs := by
  rw [refineBlock_endMs]
  by_cases hi : i + 1 < bs.length
  · rw [if_pos hi]
    have hnext : 0 ≤ (bs.getD (i + 1) default).startMs :=
      hall _ (getD_mem_of_lt hi)
    by_cases hle : (bs.getD (i + 1) default).startMs - 1 ≤ b.startMs
    · rw [if_pos hle]; omega
    · rw [if_neg hle]; omega
  · rw [if_neg hi]; omega

/-- The refinement of a single block depends on the surrounding list only
through its length and the start times. -/
theorem refineBlock_congr {bs cs : List Block} (hlen : bs.length = cs.length)
    (hstart : ∀ j, j < bs.length →
      (bs.getD j default).startMs = (cs.getD j default).startMs)
    (i : Nat) (b : Block) : refineBlock bs i b = refineBlock cs i b := by
  unfold refineBlock
  dsimp only
  rw [Block.mk.injEq]
  refine ⟨rfl, rfl, ?_, rfl⟩
  by_cases hi : i + 1 < bs.length
  · rw [if_pos hi, if_pos (show i + 1 < cs.length by omega), hstart (i + 1) hi]
  · rw [if_neg hi, if_neg (show ¬ i + 1 < cs.length by omega)]

/-- A list of blocks whose end times already satisfy the refinement formula
(over any list with the same starts) is a fixed point of `refineEndsL`. -/
theorem refineEndsL_stable {P R : List Block}
    (hlen : R.length = P.length)
    (hstart : ∀ j, j < P.length →
      (R.getD j default).startMs = (P.getD j default).startMs)
    (hend : ∀ j, j < P.length →
      (R.getD j default).endMs = (refineBlock P j (P.getD j default)).endMs) :
    refineEndsL R = R := by
  apply List.ext_getElem (by rw [refineEndsL_length])
  intro j h1 h2
  have hj : j < R.length := h2
  have hjP : j < P.length := by omega
  rw [← List.getD_eq_getElem _ default h1, ← List.getD_eq_getElem _ default h2]
  rw [refineEndsL_getD R j hj]
  have hx : refineBlock R j (R.getD j default) = refineBlock P j (R.getD j default) :=
    refineBlock_congr (by omega) (fun k hk => hstart k (by omega)) j _
  rw [hx]
  have hetaR : R.getD j default =
      Block.mk (R.getD j default).index (R.getD j default).startMs
        (R.getD j default).endMs (R.getD j default).text := rfl
  unfold refineBlock
  dsimp only
  rw [hetaR]
  rw [Block.mk.injEq]
  refine ⟨rfl, rfl, ?_, rfl⟩
  have he := hend j hjP
  rw [refineBlock_endMs] at he
  rw [he, hstart j hjP]

/-! ### What trimming does to a serialized block list -/

/-- The first block, with the leading whitespace of its index dropped (the
effect of `trimStart` on the serialized list). -/
def adjFirst : List Block → List Block
  | [] => []
  | b :: rest => {b with index := ldw b.index} :: rest

/-- The last block, with the trailing whitespace of its text dropped (the
effect of `trimEnd` on the serialized list). -/
def adjLast : List Block → List Block
  | [] => []
  | [b] => [{b with text := rdw b.text}]
  | b :: rest => b :: adjLast rest

theorem icl_singleton {α : Type _} (sep : List α) (x : List α) :
    icl sep [x] = x := rfl

theorem icl_content_head {sep : List Char} {p : List Char} (ps : List (List Char))
    (h : lineHasContent p) : lineHasContent (icl sep (p :: ps)) := by
  cases ps with
  | nil => exact h
  | cons q qs =>
    rw [icl_cons₂]
    exact lineHasContent_append_left _ (lineHasContent_append_left _ h)

theorem pieceOf_content (b : Block) : lineHasContent (pieceOf b) := by
  refine ⟨'-', ?_, by decide⟩
  unfold pieceOf timeLineOf
  apply List.mem_append_right
  apply List.mem_cons_of_mem
  apply List.mem_append_left
  apply List.mem_append_right
  apply List.mem_append_left
  decide

theorem flatten_serialize :
    ∀ (rest : List Block) (b : Block),
      List.flatten ((b :: rest).map serializeBlockL) =
        icl ['\n', '\n'] (pieceOf b :: rest.map pieceOf) ++ ['\n', '\n'] := by
  intro rest
  induction rest with
  | nil =>
    intro b
    simp [serializeBlockL_eq, icl_singleton]
  | cons c cs ih =>
    intro b
    rw [List.map_cons, List.flatten_cons, ih c]
    rw [List.map_cons, icl_cons₂, serializeBlockL_eq]
    simp [List.append_assoc]

theorem ldw_pieceOf {b : Block} (h : lineHasContent b.index) :
    ldw (pieceOf b) = pieceOf {b with index := ldw b.index} := by
  unfold pieceOf
  rw [ldw_append _ h]
  rfl

theorem rdw_pieceOf {b : Block} (h : lineHasContent b.text) :
    rdw (pieceOf b) = pieceOf {b with text := rdw b.text} := by
  have hshape : ∀ (i t x : List Char),
      i ++ ('\n' :: (t ++ ('\n' :: x))) = (i ++ ('\n' :: (t ++ ['\n']))) ++ x := by
    intro i t x
    simp [List.append_assoc]
  unfold pieceOf
  rw [show b.index ++ ('\n' :: (timeLineOf b ++ ('\n' :: b.text))) =
    (b.index ++ ('\n' :: (timeLineOf b ++ ['\n']))) ++ b.text from hshape _ _ _]
  rw [rdw_append _ h]
  rw [show timeLineOf {b with text := rdw b.text} = timeLineOf b from rfl]
  rw [hshape b.index (timeLineOf b) (rdw b.text)]

theorem ldw_icl_pieces (b0 : Block) (rest : List Block)
    (h : lineHasContent b0.index) :
    ldw (icl ['\n', '\n'] (pieceOf b0 :: rest.map pieceOf)) =
      icl ['\n', '\n'] (pieceOf {b0 with index := ldw b0.index} :: rest.map pieceOf) := by
  cases rest with
  | nil =>
    rw [List.map_nil, icl_singleton, icl_singleton]
    exact ldw_pieceOf h
  | cons r rs =>
    rw [List.map_cons, icl_cons₂, icl_cons₂, List.append_assoc, List.append_assoc]
    rw [ldw_append _ (pieceOf_content b0)]
    rw [ldw_pieceOf h]

theorem rdw_icl_pieces :
    ∀ (rest : List Block) (b0 : Block),
      (∀ b, (b0 :: rest).getLast? = some b → lineHasContent b.text) →
      rdw (icl ['\n', '\n'] (pieceOf b0 :: rest.map pieceOf)) =
        icl ['\n', '\n'] ((adjLast (b0 :: rest)).map pieceOf) := by
  intro rest
  induction rest with
  | nil =>
    intro b0 h
    rw [List.map_nil, icl_singleton,
      show adjLast [b0] = [{b0 with text := rdw b0.text}] from rfl,
      List.map_singleton, icl_singleton]
    exact rdw_pieceOf (h b0 rfl)
  | cons r rs ih =>
    intro b0 h
    have hlast : ∀ b, (r :: rs).getLast? = some b → lineHasContent b.text := by
      intro b hb
      exact h b (by rw [List.getLast?_cons_cons]; exact hb)
    rw [List.map_cons, icl_cons₂]
    rw [rdw_append _ (icl_content_head _ (pieceOf_content r))]
    rw [ih r hlast]
    rw [show adjLast (b0 :: r :: rs) = b0 :: adjLast (r :: rs) from rfl]
    obtain ⟨y, ys, hys⟩ := List.exists_cons_of_ne_nil
      (show adjLast (r :: rs) ≠ [] by
        cases rs with
        | nil => simp [adjLast]
        | cons a as => simp [adjLast])
    rw [hys, List.map_cons, List.map_cons, List.map_cons, icl_cons₂]

theorem trim_flatten_serialize (b0 : Block) (rest : List Block)
    (hidx : lineHasContent b0.index)
    (hlast : ∀ b, (b0 :: rest).getLast? = some b → lineHasContent b.text) :
    trimL (List.flatten ((b0 :: rest).map serializeBlockL)) =
      icl ['\n', '\n'] ((adjLast (adjFirst (b0 :: rest))).map pieceOf) := by
  rw [flatten_serialize rest b0]
  unfold trimL
  rw [ldw_append _ (icl_content_head _ (pieceOf_content b0))]
  rw [rdw_ws_suffix _ (show ∀ c ∈ ['\n', '\n'], isJsWs c = true by decide)]
  rw [ldw_icl_pieces b0 rest hidx]
  rw [rdw_icl_pieces rest {b0 with index := ldw b0.index} (by
    intro b hb
    cases rest with
    | nil =>
      have hb' : {b0 with index := ldw b0.index} = b := by simpa using hb
      rw [← hb']
      exact hlast b0 rfl
    | cons r rs =>
      rw [List.getLast?_cons_cons] at hb
      exact hlast b (by rw [List.getLast?_cons_cons]; exact hb))]
  rfl

/-! ### Bookkeeping for the adjusted block lists -/

theorem adjFirst_length (bs : List Block) : (adjFirst bs).length = bs.length := by
  cases bs with
  | nil => rfl
  | cons b rest => rfl

theorem adjLast_length : ∀ (bs : List Block), (adjLast bs).length = bs.length := by
  intro bs
  induction bs with
  | nil => rfl
  | cons b rest ih =>
    cases rest with
    | nil => rfl
    | cons r rs =>
      show (b :: adjLast (r :: rs)).length = (b :: r :: rs).length
      simp only [List.length_cons]
      have := ih
      simp only [List.length_cons] at this
      omega

theorem adjFirst_getD (bs : List Block) (j : Nat) :
    ((adjFirst bs).getD j default).startMs = (bs.getD j default).startMs ∧
      ((adjFirst bs).getD j default).endMs = (bs.getD j default).endMs := by
  cases bs with
  | nil => exact ⟨rfl, rfl⟩
  | cons b rest =>
    cases j with
    | zero => exact ⟨rfl, rfl⟩
    | succ n => exact ⟨rfl, rfl⟩

theorem adjLast_getD :
    ∀ (bs : List Block) (j : Nat),
      ((adjLast bs).getD j default).startMs = (bs.getD j default).startMs ∧
        ((adjLast bs).getD j default).endMs = (bs.getD j default).endMs := by
  intro bs
  induction bs with
  | nil => intro j; exact ⟨rfl, rfl⟩
  | cons b rest ih =>
    intro j
    cases rest with
    | nil =>
      cases j with
      | zero => exact ⟨rfl, rfl⟩
      | succ n => exact ⟨rfl, rfl⟩
    | cons r rs =>
      cases j with
      | zero => exact ⟨rfl, rfl⟩
      | succ n => exact ih n

theorem adjFirst_mem {bs : List Block} {x : Block} (h : x ∈ adjFirst bs) :
    ∃ a ∈ bs, (x.index = a.index ∨ x.index = ldw a.index) ∧
      x.startMs = a.startMs ∧ x.endMs = a.endMs ∧ x.text = a.text := by
  cases bs with
  | nil => simp [adjFirst] at h
  | cons b rest =>
    rcases List.mem_cons.mp h with h | h
    · exact ⟨b, List.mem_cons_self _ _, Or.inr (by rw [h]),
        by rw [h], by rw [h], by rw [h]⟩
    · exact ⟨x, List.mem_cons_of_mem _ h, Or.inl rfl, rfl, rfl, rfl⟩

theorem adjLast_mem :
    ∀ (bs : List Block) (x : Block), x ∈ adjLast bs →
      ∃ a ∈ bs, (x.text = a.text ∨ x.text = rdw a.text) ∧
        x.startMs = a.startMs ∧ x.endMs = a.endMs ∧ x.index = a.index := by
  intro bs
  induction bs with
  | nil => intro x h; simp [adjLast] at h
  | cons b rest ih =>
    intro x h
    cases rest with
    | nil =>
      have h' : x = {b with text := rdw b.text} := by simpa [adjLast] using h
      exact ⟨b, by simp, Or.inr (by rw [h']), by rw [h'], by rw [h'], by rw [h']⟩
    | cons r rs =>
      rcases List.mem_cons.mp h with h | h
      · exact ⟨b, by simp, Or.inl (by rw [h]), by rw [h], by rw [h], by rw [h]⟩
      · obtain ⟨a, ha, h1, h2, h3, h4⟩ := ih x h
        exact ⟨a, List.mem_cons_of_mem _ ha, h1, h2, h3, h4⟩

/-! ### Trailing trim of a block text keeps the content of every line -/

theorem icl_content_last {sep : List Char} :
    ∀ (xs : List (List Char)) (lst : List Char), lineHasContent lst →
      lineHasContent (icl sep (xs ++ [lst])) := by
  intro xs
  induction xs with
  | nil =>
    intro lst h
    rw [List.nil_append, icl_singleton]
    exact h
  | cons x xs ih =>
    intro lst h
    obtain ⟨y, ys, hys⟩ := List.exists_cons_of_ne_nil
      (show xs ++ [lst] ≠ [] by simp)
    rw [List.cons_append, hys, icl_cons₂, ← hys]
    exact lineHasContent_append_right _ (ih lst h)

theorem rdw_icl_lines :
    ∀ (init : List (List Char)) (lst : List Char), lineHasContent lst →
      rdw (icl ['\n'] (init ++ [lst])) = icl ['\n'] (init ++ [rdw lst]) := by
  intro init
  induction init with
  | nil =>
    intro lst h
    rw [List.nil_append, List.nil_append, icl_singleton, icl_singleton]
  | cons x xs ih =>
    intro lst h
    obtain ⟨y, ys, hys⟩ := List.exists_cons_of_ne_nil
      (show xs ++ [lst] ≠ [] by simp)
    obtain ⟨y', ys', hys'⟩ := List.exists_cons_of_ne_nil
      (show xs ++ [rdw lst] ≠ [] by simp)
    rw [List.cons_append, List.cons_append, hys, hys', icl_cons₂, icl_cons₂,
      ← hys, ← hys']
    rw [rdw_append _ (icl_content_last xs lst h)]
    rw [ih lst h]

theorem content_of_lines {t : List Char}
    (h : ∀ l ∈ splitNl t, lineHasContent l) : lineHasContent t := by
  obtain ⟨init, lst, hsp⟩ : ∃ init lst, splitNl t = init ++ [lst] := by
    rcases List.eq_nil_or_concat (splitNl t) with h0 | ⟨init, lst, h0⟩
    · exact absurd h0 (splitCharSep_ne_nil _ t)
    · exact ⟨init, lst, by rw [h0, List.concat_eq_append]⟩
  have ht : t = icl ['\n'] (init ++ [lst]) := by
    rw [← hsp]
    exact (icl_splitCharSep '\n' t).symm
  rw [ht]
  exact icl_content_last init lst (h lst (by rw [hsp]; simp))

theorem splitNl_rdw_content {t : List Char}
    (h : ∀ l ∈ splitNl t, lineHasContent l) :
    ∀ l ∈ splitNl (rdw t), lineHasContent l := by
  obtain ⟨init, lst, hsp⟩ : ∃ init lst, splitNl t = init ++ [lst] := by
    rcases List.eq_nil_or_concat (splitNl t) with h0 | ⟨init, lst, h0⟩
    · exact absurd h0 (splitCharSep_ne_nil _ t)
    · exact ⟨init, lst, by rw [h0, List.concat_eq_append]⟩
  have hlst : lineHasContent lst := h lst (by rw [hsp]; simp)
  have hfree : ∀ l ∈ init ++ [lst], ∀ x ∈ l, x ≠ '\n' := by
    intro l hl x hx
    have := splitCharSep_no_sep l (show l ∈ splitNl t by rw [hsp]; exact hl) x hx
    simpa using this
  have ht : t = icl ['\n'] (init ++ [lst]) := by
    rw [← hsp]
    exact (icl_splitCharSep '\n' t).symm
  rw [ht, rdw_icl_lines init lst hlst]
  have hfree' : ∀ l ∈ init ++ [rdw lst], ∀ x ∈ l, x ≠ '\n' := by
    intro l hl x hx
    rcases List.mem_append.mp hl with h1 | h1
    · exact hfree l (List.mem_append_left _ h1) x hx
    · have h2 : l = rdw lst := by simpa using h1
      subst h2
      exact hfree lst (by simp) x (mem_of_mem_rdw hx)
  rw [show splitNl (icl ['\n'] (init ++ [rdw lst])) =
      splitCharSep (fun x => decide (x = '\n')) (icl ['\n'] (init ++ [rdw lst]))
    from rfl, splitCharSep_icl (by simp) hfree']
  intro l hl
  rcases List.mem_append.mp hl with h1 | h1
  · exact h l (by rw [hsp]; exact List.mem_append_left _ h1)
  · have h2 : l = rdw lst := by simpa using h1
    subst h2
    exact rdw_content hlst

theorem timeLineOf_content (b : Block) : lineHasContent (timeLineOf b) := by
  refine ⟨'-', ?_, by decide⟩
  unfold timeLineOf
  apply List.mem_append_right
  apply List.mem_append_left
  decide

theorem reduceOption_map_parse :
    ∀ (l : List Block), (∀ x ∈ l, parsePieceL (pieceOf x) = some x) →
      ((l.map pieceOf).map parsePieceL).reduceOption = l := by
  intro l
  induction l with
  | nil => intro _; rfl
  | cons a as ih =>
    intro h
    rw [List.map_cons, List.map_cons, h a (by simp), List.reduceOption_cons_of_some]
    rw [ih (fun x hx => h x (List.mem_cons_of_mem _ hx))]

/-! ### Idempotence of `refineSrtTiming` on inputs with non-negative starts -/

theorem refineSrtTimingL_idem (s : List Char)
    (hpos : ∀ b ∈ parsedBlocksL s, 0 ≤ b.startMs) :
    refineSrtTimingL (refineSrtTimingL s) = refineSrtTimingL s := by
  have hdef : ∀ u, refineSrtTimingL u =
      trimL (List.flatten ((refineEndsL (parsedBlocksL u)).map serializeBlockL)) :=
    fun u => rfl
  cases hP : parsedBlocksL s with
  | nil =>
    have h1 : refineSrtTimingL s = [] := by
      rw [hdef s, hP]
      rfl
    rw [h1]
    rfl
  | cons p0 ps =>
    have hRfacts : ∀ x ∈ refineEndsL (parsedBlocksL s),
        lineHasContent x.index ∧ (∀ c ∈ x.index, c ≠ '\n') ∧
          (∀ l ∈ splitNl x.text, lineHasContent l) ∧ 0 ≤ x.startMs ∧ 0 ≤ x.endMs := by
      intro x hx
      obtain ⟨j, b, hb, hxb⟩ := refineEndsL_mem hx
      obtain ⟨h1, h2, h3⟩ := parsedBlocksL_good hb
      subst hxb
      exact ⟨h1, h2, h3, hpos b hb, refineBlock_endMs_nonneg hpos (hpos b hb)⟩
    have hRne : refineEndsL (parsedBlocksL s) ≠ [] := by
      intro h0
      have hlen := congrArg List.length h0
      rw [refineEndsL_length, hP] at hlen
      simp at hlen
    obtain ⟨r0, rs, hR⟩ := List.exists_cons_of_ne_nil hRne
    have hO : refineSrtTimingL s =
        icl ['\n', '\n'] ((adjLast (adjFirst (r0 :: rs))).map pieceOf) := by
      rw [hdef s, hR]
      exact trim_flatten_serialize r0 rs
        (hRfacts r0 (by rw [hR]; exact List.mem_cons_self _ _)).1
        (by
          intro b hb
          have hmem : b ∈ r0 :: rs := List.mem_of_mem_getLast? hb
          exact content_of_lines
            (hRfacts b (by rw [hR]; exact hmem)).2.2.1)
    have hR'facts : ∀ x ∈ adjLast (adjFirst (r0 :: rs)),
        (∀ c ∈ x.index, c ≠ '\n') ∧ 0 ≤ x.startMs ∧ 0 ≤ x.endMs ∧
          (∀ l ∈ splitNl (pieceOf x), lineHasContent l) := by
      intro x hx
      obtain ⟨a1, ha1, htx, hsx, hex, hix⟩ := adjLast_mem _ x hx
      obtain ⟨a, ha, hia, hsa, hea, hta⟩ := adjFirst_mem ha1
      obtain ⟨hcontent, hfree, hlines, hs0, he0⟩ :=
        hRfacts a (by rw [hR]; exact ha)
      have hxidx_free : ∀ c ∈ x.index, c ≠ '\n' := by
        rw [hix]
        rcases hia with h1 | h1
        · rw [h1]; exact hfree
        · rw [h1]; exact fun c hc => hfree c (mem_of_mem_ldw hc)
      have hxidx_content : lineHasContent x.index := by
        rw [hix]
        rcases hia with h1 | h1
        · rw [h1]; exact hcontent
        · rw [h1]; exact ldw_content hcontent
      have hxs : 0 ≤ x.startMs := by rw [hsx, hsa]; exact hs0
      have hxe : 0 ≤ x.endMs := by rw [hex, hea]; exact he0
      have hxtext : ∀ l ∈ splitNl x.text, lineHasContent l := by
        rcases htx with h1 | h1
        · rw [h1, hta]; exact hlines
        · rw [h1]
          exact splitNl_rdw_content (by rw [hta]; exact hlines)
      refine ⟨hxidx_free, hxs, hxe, ?_⟩
      have hps : splitNl (pieceOf x) = x.index :: timeLineOf x :: splitNl x.text := by
        unfold pieceOf
        rw [splitNl_append_line _ hxidx_free]
        rw [splitNl_append_line _ (timeLineOf_no_nl hxs hxe)]
      rw [hps]
      intro l hl
      rcases List.mem_cons.mp hl with h1 | h1
      · rw [h1]; exact hxidx_content
      rcases List.mem_cons.mp h1 with h2 | h2
      · rw [h2]; exact timeLineOf_content x
      · exact hxtext l h2
    have htrimO : trimL (refineSrtTimingL s) = refineSrtTimingL s := trimL_idem _
    have hR'ne : adjLast (adjFirst (r0 :: rs)) ≠ [] := by
      intro h0
      have hlen := congrArg List.length h0
      rw [adjLast_length, adjFirst_length] at hlen
      simp at hlen
    have hsplit : splitBlankL (trimL (refineSrtTimingL s)) =
        (adjLast (adjFirst (r0 :: rs))).map pieceOf := by
      rw [htrimO, hO]
      apply splitBlankL_icl
      · intro h0
        rw [List.map_eq_nil_iff] at h0
        exact hR'ne h0
      · intro p hp
        rw [List.mem_map] at hp
        obtain ⟨x, hx, hpx⟩ := hp
        rw [← hpx]
        exact (hR'facts x hx).2.2.2
    have hparse : parsedBlocksL (refineSrtTimingL s) = adjLast (adjFirst (r0 :: rs)) := by
      unfold parsedBlocksL
      rw [hsplit]
      exact reduceOption_map_parse _ (fun x hx =>
        parsePieceL_pieceOf x (hR'facts x hx).1 (hR'facts x hx).2.1
          (hR'facts x hx).2.2.1)
    have hstable : refineEndsL (adjLast (adjFirst (r0 :: rs))) =
        adjLast (adjFirst (r0 :: rs)) := by
      apply refineEndsL_stable (P := parsedBlocksL s)
      · rw [adjLast_length, adjFirst_length, ← hR, refineEndsL_length]
      · intro j hj
        rw [(adjLast_getD _ j).1, (adjFirst_getD _ j).1, ← hR,
          refineEndsL_getD _ j hj]
        rfl
      · intro j hj
        rw [(adjLast_getD _ j).2, (adjFirst_getD _ j).2, ← hR,
          refineEndsL_getD _ j hj]
    obtain ⟨q0, qs, hq⟩ := List.exists_cons_of_ne_nil hR'ne
    rw [hdef (refineSrtTimingL s), hparse, hstable, hq]
    rw [flatten_serialize qs q0]
    rw [show pieceOf q0 :: qs.map pieceOf = (q0 :: qs).map pieceOf from rfl, ← hq]
    rw [trimL_ws_suffix _ (show ∀ c ∈ ['\n', '\n'], isJsWs c = true by decide)
      (by
        rw [hq, List.map_cons]
        exact icl_content_head _ (pieceOf_content q0))]
    rw [← hO]
    exact htrimO

/-- C10 (counterexample): the claimed idempotence of `refineSrtTiming` fails
as stated.  The input below has one well-formed block whose only text line is
`x` (so every text line of every well-formed block has non-whitespace
content), yet its start timestamp `00:00:00,-1` parses to the negative value
-1 ms, `toStr` of a negative value is not re-parseable (`Math.floor` and `%`
produce digit strings with embedded minus signs), and a second refinement
pass therefore changes the output. -/
theorem c10_refine_idempotent_counterexample :
    (∀ b ∈ parsedBlocksOf "1\n00:00:00,-1 --> 00:00:01,000\nx",
      ∀ l ∈ splitNl b.text, lineHasContent l) ∧
      refineSrtTiming (refineSrtTiming "1\n00:00:00,-1 --> 00:00:01,000\nx") ≠
        refineSrtTiming "1\n00:00:00,-1 --> 00:00:01,000\nx" := by
  constructor
  · decide
  · decide

/-- C10 (amended): timing refinement is idempotent on every input whose
well-formed blocks all have non-negative parsed start times (the text lines
of well-formed blocks always carry non-whitespace content, and the claim's
text-line condition is kept as stated):
`refineSrtTiming (refineSrtTiming s) = refineSrtTiming s`. -/
theorem c10_refine_idempotent_amended (s : String)
    (_htext : ∀ b ∈ parsedBlocksOf s, ∀ l ∈ splitNl b.text, lineHasContent l)
    (hpos : ∀ b ∈ parsedBlocksOf s, 0 ≤ b.startMs) :
    refineSrtTiming (refineSrtTiming s) = refineSrtTiming s := by
  unfold refineSrtTiming
  show String.mk (refineSrtTimingL (String.mk (refineSrtTimingL s.data)).data) =
    String.mk (refineSrtTimingL s.data)
  rw [show (String.mk (refineSrtTimingL s.data)).data = refineSrtTimingL s.data
    from rfl]
  rw [refineSrtTimingL_idem s.data hpos]

/-- C10 (witness): the amended idempotence theorem applied to a concrete
well-formed SRT input with non-negative timestamps. -/
theorem c10_refine_idempotent_witness :
    ((∀ b ∈ parsedBlocksOf "1\n00:00:00,000 --> 00:00:01,000\nhi",
        ∀ l ∈ splitNl b.text, lineHasContent l) ∧
      (∀ b ∈ parsedBlocksOf "1\n00:00:00,000 --> 00:00:01,000\nhi",
        0 ≤ b.startMs)) ∧
      refineSrtTiming (refineSrtTiming "1\n00:00:00,000 --> 00:00:01,000\nhi") =
        refineSrtTiming "1\n00:00:00,000 --> 00:00:01,000\nhi" :=
  ⟨⟨by decide, by decide⟩,
    c10_refine_idempotent_amended _ (by decide) (by decide)⟩

end TranscriptTool
